import Mathlib

/-!
# immuni-stats: a shallow embedding of `main.go`

The program downloads the index of published key batches, then every batch in
`[Oldest, Newest]`, unzips it, decodes the `export.bin` member and accumulates
the number of keys and the covered time window.

The embedding follows `main.go` function by function (`fetch`, `getTEKs`,
`main`).  The collaborators that live outside the file (HTTP, JSON, zip,
protobuf) are fields of an environment `Env`; Go runtime behaviour that the
statements depend on (slice bounds, nil dereference, `int` wrap-around,
`uint64` wrap-around, `time.Duration` saturation, `float64` rounding) is
modelled explicitly.
-/

namespace ImmuniStats

deriving instance DecidableEq for Except

/-! ## Go machine integers (64-bit platform) -/

/-- Largest value of Go's `int` / `int64`. -/
def maxInt : Int := 2 ^ 63 - 1

/-- Smallest value of Go's `int` / `int64`. -/
def minInt : Int := -(2 ^ 63)

/-- Two's complement wrap-around of a mathematical integer into `int64`. -/
def wrapInt (i : Int) : Int := (i + 2 ^ 63) % 2 ^ 64 - 2 ^ 63

/-- Wrap-around of a natural number into `uint64`. -/
def wrapUint64 (n : Nat) : Nat := n % 2 ^ 64

/-- Membership in the range of Go's `int`. -/
def IsInt (i : Int) : Prop := minInt ≤ i ∧ i ≤ maxInt

instance (i : Int) : Decidable (IsInt i) := by unfold IsInt; infer_instance

/-! ## Byte slices

A Go slice is a window of length `len` on a backing array; re-slicing
`s[:n]` is legal up to the capacity, `s[n:]` up to the length.  `arr` is the
backing array from the first element of the slice up to its capacity. -/

/-- Go `[]byte`: `arr` is the backing storage from the slice start to
its capacity, `len` the slice length. -/
structure ByteSlice where
  arr : List Nat
  len : Nat
  deriving DecidableEq, Repr

namespace ByteSlice

/-- Capacity `cap(s)`. -/
def cap (s : ByteSlice) : Nat := s.arr.length

/-- Well-formedness of a slice value: `len(s) ≤ cap(s)`. -/
def WF (s : ByteSlice) : Prop := s.len ≤ s.cap

instance (s : ByteSlice) : Decidable s.WF := by unfold WF; infer_instance

/-- The bytes visible through the slice. -/
def bytes (s : ByteSlice) : List Nat := s.arr.take s.len

/-- A slice whose capacity equals its length, as produced by a literal or
by `[]byte(str)`. -/
def ofBytes (bs : List Nat) : ByteSlice := ⟨bs, bs.length⟩

/-- Go `s[:n]`: `none` is the run-time panic "slice bounds out of range",
raised when `n > cap(s)`. -/
def sliceTo (s : ByteSlice) (n : Nat) : Option ByteSlice :=
  if n ≤ s.cap then some ⟨s.arr, n⟩ else none

/-- Go `s[n:]`: `none` is the run-time panic "slice bounds out of range",
raised when `n > len(s)`. -/
def sliceFrom (s : ByteSlice) (n : Nat) : Option ByteSlice :=
  if n ≤ s.len then some ⟨s.arr.drop n, s.len - n⟩ else none

end ByteSlice

/-- Go `bytes.Compare`: lexicographic three-way comparison. -/
def bytesCompare : List Nat → List Nat → Int
  | [], [] => 0
  | [], _ :: _ => -1
  | _ :: _, [] => 1
  | a :: as, b :: bs =>
    if a < b then -1 else if b < a then 1 else bytesCompare as bs

/-! ## The exposure-notification record types -/

/-- Modelled from the spec: the generated type `en.TemporaryExposureKey`
is not part of the sources.  `main` reads `*k.RollingPeriod`, so the field is
a pointer (`none` is nil); the remaining fields are not interpreted and are
kept as raw bytes in `rest`. -/
structure TemporaryExposureKey where
  RollingPeriod : Option Int
  rest : List Nat
  deriving DecidableEq, Repr

/-- Modelled from the spec: the generated type
`en.TemporaryExposureKeyExport` is not part of the sources.  `main` reads
`*TEKs.StartTimestamp`, `*TEKs.EndTimestamp` (pointers to unsigned 64-bit
values, converted with `int64(...)`) and `TEKs.Keys`. -/
structure TemporaryExposureKeyExport where
  StartTimestamp : Option Nat
  EndTimestamp : Option Nat
  Keys : List TemporaryExposureKey
  deriving DecidableEq, Repr

/-- The two errors `getTEKs` can return. -/
inductive TEKError where
  /-- Error `fmt.Errorf("header not recognized: %x", data[:16])` -/
  | headerNotRecognized (hdr : List Nat)
  /-- Error `fmt.Errorf("Failed to unmarshal TEK: %w", err)` -/
  | unmarshalFailed (cause : String)
  deriving DecidableEq, Repr

/-- Run-time panics of the Go runtime that the program can raise. -/
inductive Panic where
  | sliceBoundsOutOfRange
  | nilPointerDereference
  deriving DecidableEq, Repr

/-- What a call of `getTEKs` does: the calls it made to `proto.Unmarshal`
(their byte arguments, in order) and how it ended: with a panic, or by
returning the Go pair `(TEKs, err)` where `none` is `nil`. -/
structure GetTEKsRun where
  unmarshalCalls : List (List Nat)
  result : Except Panic (Option TemporaryExposureKeyExport × Option TEKError)

/-- The magic `hdr := []byte("EK Export v1\x20\x20\x20\x20")` -/
def hdr : List Nat := "EK Export v1    ".toList.map Char.toNat

/-- Source function `getTEKs` (main.go 42-53).  `unmarshal` is
`proto.Unmarshal` into a fresh `TemporaryExposureKeyExport`. -/
def getTEKs (unmarshal : List Nat → Except String TemporaryExposureKeyExport)
    (data : ByteSlice) : GetTEKsRun :=
  match data.sliceTo 16 with
  | none => ⟨[], .error .sliceBoundsOutOfRange⟩
  | some head =>
    if bytesCompare head.bytes hdr ≠ 0 then
      ⟨[], .ok (none, some (.headerNotRecognized head.bytes))⟩
    else
      match data.sliceFrom 16 with
      | none => ⟨[], .error .sliceBoundsOutOfRange⟩
      | some body =>
        match unmarshal body.bytes with
        | .error e => ⟨[body.bytes], .ok (none, some (.unmarshalFailed e))⟩
        | .ok TEKs => ⟨[body.bytes], .ok (some TEKs, none)⟩

/-! ## `time.Time`, `time.Duration` and `float64`

Only what `main` uses: `time.Unix(sec, 0)`, the zero `Time`, `Time.Sub`,
`Duration.Hours`, float division by `24` and the conversion `int(f)`. -/

/-- Go `time.Time` without a monotonic reading and with a zero nanosecond
field: `sec` is the number of seconds since January 1, year 1 (the `ext`
field of the Go structure). -/
structure Time where
  sec : Int
  deriving DecidableEq, Repr

/-- The zero value of `time.Time` (`var firstTimestamp, lastTimestamp
time.Time`). -/
def Time.zero : Time := ⟨0⟩

/-- Go constant `unixToInternal`: seconds from year 1 to 1970. -/
def unixToInternal : Int := (1969 * 365 + 1969 / 4 - 1969 / 100 + 1969 / 400) * 86400

/-- Go `time.Unix(sec, 0)` for an `int64` value `sec`: the `int64` sum
`sec + unixToInternal`. -/
def timeUnix (sec : Int) : Time := ⟨wrapInt (sec + unixToInternal)⟩

/-- Go `minDuration`, in nanoseconds. -/
def minDuration : Int := -(2 ^ 63)

/-- Go `maxDuration`, in nanoseconds. -/
def maxDuration : Int := 2 ^ 63 - 1

/-- Go `Time.Sub`, a `Duration` in nanoseconds: "If the result exceeds the
maximum (or minimum) value that can be stored in a Duration, the maximum (or
minimum) duration will be returned." -/
def Time.Sub (t u : Time) : Int :=
  let d := (t.sec - u.sec) * 1000000000
  if d < minDuration then minDuration
  else if maxDuration < d then maxDuration
  else d

/-- Round a rational to the nearest integer, ties to even. -/
def roundHalfEven (x : ℚ) : Int :=
  let f := ⌊x⌋
  let r := x - f
  if r < 1 / 2 then f
  else if 1 / 2 < r then f + 1
  else if f % 2 = 0 then f else f + 1

/-- IEEE 754 binary64 rounding (round to nearest, ties to even) of an exact
value to the `float64` value that represents it: 53 significant bits.  The
exponent range is not clamped; every value that arises in `main` has a
magnitude that is zero or lies between `2^-42` and `2^63`, far inside the
normal range. -/
def roundFloat64 (x : ℚ) : ℚ :=
  if x = 0 then 0
  else
    let e := Int.log 2 |x|
    let ulp : ℚ := 2 ^ (e - 52)
    roundHalfEven (x / ulp) * ulp

/-- Go constant `time.Hour`, in nanoseconds. -/
def Hour : Int := 60 * 60 * 1000000000

/-- Go `Duration.Hours`:
`hour := d / Hour; nsec := d % Hour; return float64(hour) + float64(nsec)/(60*60*1e9)`
with Go's truncated integer division and `float64` arithmetic. -/
def Hours (d : Int) : ℚ :=
  let hour := Int.tdiv d Hour
  let nsec := Int.tmod d Hour
  roundFloat64 (roundFloat64 hour + roundFloat64 (roundFloat64 nsec / (60 * 60 * 1000000000)))

/-- Go conversion `int(f)` of a `float64`: the fraction is discarded
(truncation towards zero). -/
def floatToInt (x : ℚ) : Int := if 0 ≤ x then ⌊x⌋ else ⌈x⌉

/-! ## The environment of a run -/

/-- Format of metadata from "https://get.immuni.gov.it/v1/keys/index". -/
structure meta where
  Oldest : Int
  Newest : Int
  deriving DecidableEq, Repr

/-- What `http.Get(url)` followed by `ioutil.ReadAll(resp.Body)` yields. -/
inductive HttpResult where
  /-- The call of `http.Get` returned an error -/
  | getError (err : String)
  /-- a response with its status code; `body` is `none` when reading the
  body fails -/
  | response (statusCode : Int) (body : Option (List Nat))
  deriving DecidableEq, Repr

/-- What `file.Open()` followed by `ioutil.ReadAll(f)` yields for a zip
member. -/
inductive ZipContent where
  | openError (err : String)
  | readError (err : String)
  | data (d : ByteSlice)
  deriving DecidableEq, Repr

/-- An entry of `reader.File`. -/
structure ZipFile where
  Name : String
  content : ZipContent
  deriving DecidableEq, Repr

/-- The collaborators of `main`: the network and the three library
decoders. -/
structure Env where
  httpGet : String → HttpResult
  jsonUnmarshal : List Nat → Except String meta
  zipNewReader : List Nat → Except String (List ZipFile)
  protoUnmarshal : List Nat → Except String TemporaryExposureKeyExport

/-! ## Observable behaviour -/

/-- The calls of `log.Fatalf` in the program. -/
inductive Fatal where
  /-- Message "could not fetch url ..." (`http.Get` failed) -/
  | fetchGet (url : String)
  /-- Message "could not fetch url %s, status code: %d, %s" -/
  | fetchStatus (url : String) (statusCode : Int)
  /-- Message "could not ready url body (%s): %+v" -/
  | fetchBody (url : String)
  /-- Message "could not unmarshal metadata" -/
  | metaUnmarshal
  /-- Message "meta oldest cannot be > than newest" -/
  | metaOrder
  /-- Message "could not read keys body from %s: %+v" -/
  | zipRead (url : String)
  /-- Message "could not open export.bin for %s: %+v" -/
  | openExport (url : String)
  /-- Message "could not read content from export.bin for %s: %+v" -/
  | readExport (url : String)
  /-- Message "could not get TEKs from data for url %s: %+v" -/
  | getTEKs (url : String) (err : TEKError)
  deriving DecidableEq, Repr

/-- How a run stops early: `log.Fatalf` (exit status 1) or a run-time
panic (exit status 2). -/
inductive Abort where
  | fatal (f : Fatal)
  | panic (p : Panic)
  deriving DecidableEq, Repr

/-- The effects of the program, in order of occurrence. -/
inductive Event where
  /-- Call `http.Get(url)` -/
  | httpGet (url : String)
  /-- Call `proto.Unmarshal(payload, TEKs)` -/
  | protoUnmarshal (payload : List Nat)
  /-- Log line "meta: oldest %d, newest %d" -/
  | logMeta (oldest newest : Int)
  /-- Log line "fetching %s" -/
  | logFetching (url : String)
  /-- Log line "!! key with rolling period != 144 !!" -/
  | logRollingPeriod
  /-- Call `log.Printf("")` -/
  | logBlank
  /-- Log line "======== BEGIN Key Batch %4d ========" -/
  | logBatchBegin (keys : Int)
  /-- Log line "batch start timestamp: %s" -/
  | logBatchStart (t : Time)
  /-- Log line "batch end timestamp: %s" -/
  | logBatchStop (t : Time)
  /-- Log line "time window size: %.1f hours", the `float64` before formatting -/
  | logWindow (hours : ℚ)
  /-- Log line "number of keys: %d" -/
  | logNumKeys (n : Nat)
  /-- Log line "======== END Key Batch %4d ========" -/
  | logBatchEnd (keys : Int)
  /-- Log line "total number of keys: %d" -/
  | logTotal (total : Nat)
  /-- Log line "unique number of reports assuming 14 TEK per report: %d" -/
  | logReports (n : Nat)
  /-- Log line "total time window: %dd %dh" -/
  | logTotalWindow (days hours : Int)
  deriving DecidableEq, Repr

/-- The variables of `main` that live across the batch loop (`total`,
`firstTimestamp`, `lastTimestamp`) and the effects performed so far. -/
structure State where
  total : Nat
  firstTimestamp : Time
  lastTimestamp : Time
  trace : List Event
  deriving DecidableEq, Repr

/-- A step either carries on with a new state or aborts the process; the
state at the abort is kept. -/
abbrev Exec (α : Type) := Except (Abort × State) α

/-- Record an effect. -/
def emit (e : Event) (st : State) : State := { st with trace := st.trace ++ [e] }

/-! ## The program -/

/-- Source function `fetch` (main.go 26-40). -/
def fetch (env : Env) (url : String) (st : State) : Exec (List Nat × State) :=
  let st := emit (.httpGet url) st
  match env.httpGet url with
  | .getError _ => .error (.fatal (.fetchGet url), st)
  | .response statusCode body =>
    if statusCode ≠ 200 then .error (.fatal (.fetchStatus url statusCode), st)
    else
      match body with
      | none => .error (.fatal (.fetchBody url), st)
      | some b => .ok (b, st)

/-- The loop `for _, k := range TEKs.Keys` of `main` (main.go 96-101):
`*k.RollingPeriod` is dereferenced for every key, and a value other than 144
is logged. -/
def validateKeys : List TemporaryExposureKey → State → Exec State
  | [], st => .ok st
  | k :: ks, st =>
    match k.RollingPeriod with
    | none => .error (.panic .nilPointerDereference, st)
    | some rollingPeriod =>
      validateKeys ks (if rollingPeriod ≠ 144 then emit .logRollingPeriod st else st)

/-- The body of `for _, file := range reader.File` in `main`
(main.go 83-122) for one entry of the archive. -/
def processFile (env : Env) (metadata : meta) (keys : Int) (url : String)
    (file : ZipFile) (st : State) : Exec State :=
  if file.Name = "export.bin" then
    match file.content with
    | .openError _ => .error (.fatal (.openExport url), st)
    | .readError _ => .error (.fatal (.readExport url), st)
    | .data data =>
      let run := getTEKs env.protoUnmarshal data
      let st := { st with trace := st.trace ++ run.unmarshalCalls.map Event.protoUnmarshal }
      match run.result with
      | .error p => .error (.panic p, st)
      | .ok (TEKs, err) =>
        -- `range TEKs.Keys` reads a field through the pointer `TEKs`
        match TEKs with
        | none => .error (.panic .nilPointerDereference, st)
        | some teks =>
          match validateKeys teks.Keys st with
          | .error e => .error e
          | .ok st =>
            match err with
            | some e => .error (.fatal (.getTEKs url e), st)
            | none =>
              let st := emit .logBlank st
              let st := emit (.logBatchBegin keys) st
              match teks.StartTimestamp with
              | none => .error (.panic .nilPointerDereference, st)
              | some startTimestamp =>
                let begin := timeUnix (wrapInt startTimestamp)
                match teks.EndTimestamp with
                | none => .error (.panic .nilPointerDereference, st)
                | some endTimestamp =>
                  let stop := timeUnix (wrapInt endTimestamp)
                  let st := emit (.logBatchStart begin) st
                  let st := emit (.logBatchStop stop) st
                  let st := emit (.logWindow (Hours (stop.Sub begin))) st
                  let st := emit (.logNumKeys teks.Keys.length) st
                  let st := emit (.logBatchEnd keys) st
                  let st := { st with total := wrapUint64 (st.total + teks.Keys.length) }
                  let st :=
                    if keys = metadata.Oldest then { st with firstTimestamp := begin }
                    else if keys = metadata.Newest then { st with lastTimestamp := stop }
                    else st
                  .ok (emit .logBlank st)
  else .ok st

/-- The loop `for _, file := range reader.File` (main.go 82-124). -/
def processFiles (env : Env) (metadata : meta) (keys : Int) (url : String) :
    List ZipFile → State → Exec State
  | [], st => .ok st
  | file :: files, st =>
    match processFile env metadata keys url file st with
    | .error e => .error e
    | .ok st => processFiles env metadata keys url files st

/-- The address `fmt.Sprintf("https://get.immuni.gov.it/v1/keys/%d", keys)` -/
def batchUrl (keys : Int) : String := "https://get.immuni.gov.it/v1/keys/" ++ toString keys

/-- The body of the batch loop of `main` (main.go 74-124) for the
identifier `keys`. -/
def processBatch (env : Env) (metadata : meta) (keys : Int) (st : State) : Exec State :=
  let url := batchUrl keys
  let st := emit (.logFetching url) st
  match fetch env url st with
  | .error e => .error e
  | .ok (keysBody, st) =>
    match env.zipNewReader keysBody with
    | .error _ => .error (.fatal (.zipRead url), st)
    | .ok files => processFiles env metadata keys url files st

/-- How a fuel-bounded execution ends. -/
inductive Run where
  /-- the code ran to its end -/
  | done (st : State)
  /-- Either `log.Fatalf` or a panic stopped the process -/
  | aborted (a : Abort) (st : State)
  /-- the iteration bound was reached while the loop was still running -/
  | outOfFuel (st : State)
  deriving DecidableEq, Repr

/-- The loop `for keys := metadata.Oldest; keys <= metadata.Newest; keys++`
(main.go 72-125), started at the counter value `keys`; `fuel` bounds the
number of iterations, and `keys++` is Go's wrapping `int` increment. -/
def batchLoop (env : Env) (metadata : meta) : Nat → Int → State → Run
  | 0, _, st => .outOfFuel st
  | fuel + 1, keys, st =>
    if keys ≤ metadata.Newest then
      match processBatch env metadata keys st with
      | .error (a, st) => .aborted a st
      | .ok st => batchLoop env metadata fuel (wrapInt (keys + 1)) st
    else .done st

/-- The expression `int(lastTimestamp.Sub(firstTimestamp).Hours()/24)`
(main.go 129). -/
def windowDays (firstTimestamp lastTimestamp : Time) : Int :=
  floatToInt (roundFloat64 (Hours (lastTimestamp.Sub firstTimestamp) / 24))

/-- The expression `int(lastTimestamp.Sub(firstTimestamp).Hours())%24`
(main.go 129), with Go's truncated remainder. -/
def windowHours (firstTimestamp lastTimestamp : Time) : Int :=
  Int.tmod (floatToInt (Hours (lastTimestamp.Sub firstTimestamp))) 24

/-- The three summary lines printed after the loop (main.go 127-129). -/
def report (st : State) : State :=
  let st := emit (.logTotal st.total) st
  let st := emit (.logReports (st.total / 14)) st
  emit (.logTotalWindow (windowDays st.firstTimestamp st.lastTimestamp)
    (windowHours st.firstTimestamp st.lastTimestamp)) st

/-- The state at the start of `main`. -/
def State.init : State := ⟨0, Time.zero, Time.zero, []⟩

/-- The address of the metadata (main.go 58). -/
def indexUrl : String := "https://get.immuni.gov.it/v1/keys/index"

/-- Source function `main` (main.go 55-131); `fuel` bounds the number of
iterations of the batch loop. -/
def main (env : Env) (fuel : Nat) : Run :=
  match fetch env indexUrl State.init with
  | .error (a, st) => .aborted a st
  | .ok (metaBody, st) =>
    match env.jsonUnmarshal metaBody with
    | .error _ => .aborted (.fatal .metaUnmarshal) st
    | .ok metadata =>
      let st := emit (.logMeta metadata.Oldest metadata.Newest) st
      if metadata.Oldest > metadata.Newest then .aborted (.fatal .metaOrder) st
      else
        match batchLoop env metadata fuel metadata.Oldest st with
        | .done st => .done (report st)
        | r => r

/-! ## Specification vocabulary -/

/-- The environment hands out Go values: `json.Unmarshal` fills the two
`int` fields of `meta` with values in the range of `int`. -/
def Env.WF (env : Env) : Prop :=
  ∀ body m, env.jsonUnmarshal body = .ok m → IsInt m.Oldest ∧ IsInt m.Newest

/-- The identifiers `lo, lo+1, ..., hi` (none when `hi < lo`). -/
def batchIds (lo hi : Int) : List Int :=
  (List.range (hi + 1 - lo).toNat).map (fun (i : Nat) => lo + (i : Int))

/-- The batch loop as a fold over a list of identifiers. -/
def runBatches (env : Env) (metadata : meta) : List Int → State → Exec State
  | [], st => .ok st
  | keys :: rest, st =>
    match processBatch env metadata keys st with
    | .error e => .error e
    | .ok st => runBatches env metadata rest st

/-- The addresses passed to `http.Get`, in order. -/
def fetchedUrls (trace : List Event) : List String :=
  trace.filterMap (fun e => match e with | .httpGet url => some url | _ => none)

/-- The entries of the archive of batch `keys`, when the batch can be
fetched and its archive read. -/
def batchFiles (env : Env) (keys : Int) : List ZipFile :=
  match env.httpGet (batchUrl keys) with
  | .response statusCode (some body) =>
    if statusCode = 200 then
      match env.zipNewReader body with
      | .ok files => files
      | .error _ => []
    else []
  | _ => []

/-- The members of the archive of batch `keys` named `export.bin`. -/
def exportMembers (env : Env) (keys : Int) : List ZipFile :=
  (batchFiles env keys).filter (fun f => f.Name = "export.bin")

/-- The record `getTEKs` returns for the content of a member, if any. -/
def recordOf (env : Env) (file : ZipFile) : Option TemporaryExposureKeyExport :=
  match file.content with
  | .data d =>
    match (getTEKs env.protoUnmarshal d).result with
    | .ok (some teks, _) => some teks
    | _ => none
  | _ => none

/-- The record extracted from batch `keys`: the decoded content of its
`export.bin` member, `none` when the archive has no such member. -/
def extracted (env : Env) (keys : Int) : Option TemporaryExposureKeyExport :=
  match exportMembers env keys with
  | [] => none
  | file :: _ => recordOf env file

/-- The run summary of the specification. -/
structure Summary where
  total : Nat
  firstTimestamp : Time
  lastTimestamp : Time
  deriving DecidableEq, Repr

/-- The summary held in a state. -/
def State.summary (st : State) : Summary := ⟨st.total, st.firstTimestamp, st.lastTimestamp⟩

/-- What decoding one record does to the summary (main.go 115-120): the
key count is added to `total`; the batch at `Oldest` sets `firstTimestamp`,
otherwise the batch at `Newest` sets `lastTimestamp`. -/
def foldRecord (metadata : meta) (keys : Int) (s : Summary)
    (teks : TemporaryExposureKeyExport) : Summary where
  total := wrapUint64 (s.total + teks.Keys.length)
  firstTimestamp :=
    if keys = metadata.Oldest then timeUnix (wrapInt (teks.StartTimestamp.getD 0))
    else s.firstTimestamp
  lastTimestamp :=
    if keys = metadata.Oldest then s.lastTimestamp
    else if keys = metadata.Newest then timeUnix (wrapInt (teks.EndTimestamp.getD 0))
    else s.lastTimestamp

/-- The records decoded from the `export.bin` members of batch `keys`,
in archive order. -/
def batchRecords (env : Env) (keys : Int) : List TemporaryExposureKeyExport :=
  (exportMembers env keys).filterMap (recordOf env)

/-- A member named `export.bin` decodes to a record with both timestamps
set. -/
def Decodes (env : Env) (file : ZipFile) : Prop :=
  ∃ teks s e, recordOf env file = some teks ∧ teks.StartTimestamp = some s ∧
    teks.EndTimestamp = some e

/-- The metadata a run works with: the decoded answer of the index. -/
def metadataOf (env : Env) : Option meta :=
  match env.httpGet indexUrl with
  | .response statusCode (some body) =>
    if statusCode = 200 then
      match env.jsonUnmarshal body with
      | .ok m => some m
      | .error _ => none
    else none
  | _ => none

/-- The summary after folding the records of the batches `ids`, in order,
into `s`. -/
def foldBatches (env : Env) (metadata : meta) (ids : List Int) (s : Summary) : Summary :=
  ids.foldl (fun s keys => (batchRecords env keys).foldl (foldRecord metadata keys) s) s

/-- The sum of `len(record.keys)` over the batches `ids` whose `export.bin`
member was extracted, one record per batch. -/
def extractedKeyCount (env : Env) (ids : List Int) : Nat :=
  ((ids.filterMap (extracted env)).map (fun teks => teks.Keys.length)).sum

/-- The sum of `len(record.keys)` over every member named `export.bin`
that was extracted from the batches `ids`: an archive with several such
members contributes once per member. -/
def memberKeyCount (env : Env) (ids : List Int) : Nat :=
  (ids.map (fun keys => ((batchRecords env keys).map (fun r => r.Keys.length)).sum)).sum

/-- The state in which the batch loop starts. -/
def loopStart (metadata : meta) : State :=
  emit (.logMeta metadata.Oldest metadata.Newest) (emit (.httpGet indexUrl) State.init)

/-- How a run ended, without the trace of effects. -/
inductive Outcome where
  | done (s : Summary)
  | aborted (a : Abort) (s : Summary)
  | outOfFuel (s : Summary)
  deriving DecidableEq, Repr

/-- The outcome of a run. -/
def Run.outcome : Run → Outcome
  | .done st => .done st.summary
  | .aborted a st => .aborted a st.summary
  | .outOfFuel st => .outOfFuel st.summary

/-- The effects of a run. -/
def Run.trace : Run → List Event
  | .done st => st.trace
  | .aborted _ st => st.trace
  | .outOfFuel st => st.trace

/-! ### Runs that differ only in rolling-period values -/

/-- Two key records that agree on everything but the value of a rolling
period that both carry. -/
def SameKeyButRollingPeriod (k1 k2 : TemporaryExposureKey) : Prop :=
  k1.rest = k2.rest ∧ k1.RollingPeriod.isSome = k2.RollingPeriod.isSome

/-- Two records that agree on their timestamps and, key by key, on
everything but rolling-period values. -/
def SameRecordButRollingPeriod (r1 r2 : TemporaryExposureKeyExport) : Prop :=
  r1.StartTimestamp = r2.StartTimestamp ∧ r1.EndTimestamp = r2.EndTimestamp ∧
    List.Forall₂ SameKeyButRollingPeriod r1.Keys r2.Keys

/-- Two results of `getTEKs` that are the same panic, or the same error,
or records that differ only in rolling-period values. -/
def SameResultButRollingPeriod :
    Except Panic (Option TemporaryExposureKeyExport × Option TEKError) →
    Except Panic (Option TemporaryExposureKeyExport × Option TEKError) → Prop
  | .error p1, .error p2 => p1 = p2
  | .ok (t1, e1), .ok (t2, e2) =>
    e1 = e2 ∧
      match t1, t2 with
      | none, none => True
      | some r1, some r2 => SameRecordButRollingPeriod r1 r2
      | _, _ => False
  | _, _ => False

/-- Two member contents that fail alike or whose bytes `getTEKs` turns
into results that differ only in rolling-period values. -/
def SameContentButRollingPeriod
    (u1 u2 : List Nat → Except String TemporaryExposureKeyExport) :
    ZipContent → ZipContent → Prop
  | .openError _, .openError _ => True
  | .readError _, .readError _ => True
  | .data d1, .data d2 => SameResultButRollingPeriod (getTEKs u1 d1).result (getTEKs u2 d2).result
  | _, _ => False

/-- Two archive entries with the same name and, for `export.bin`, with
contents that differ only in rolling-period values. -/
def SameFileButRollingPeriod
    (u1 u2 : List Nat → Except String TemporaryExposureKeyExport) (f1 f2 : ZipFile) : Prop :=
  f1.Name = f2.Name ∧
    (f1.Name = "export.bin" → SameContentButRollingPeriod u1 u2 f1.content f2.content)

/-- Two batch bodies that are both unreadable as archives, or hold entry
by entry the same files up to rolling-period values. -/
def SameArchiveButRollingPeriod (env1 env2 : Env) (b1 b2 : List Nat) : Prop :=
  match env1.zipNewReader b1, env2.zipNewReader b2 with
  | .error _, .error _ => True
  | .ok fs1, .ok fs2 =>
    List.Forall₂ (SameFileButRollingPeriod env1.protoUnmarshal env2.protoUnmarshal) fs1 fs2
  | _, _ => False

/-- Two index bodies that are both rejected by `json.Unmarshal` or hold
the same metadata. -/
def SameIndex (env1 env2 : Env) (b1 b2 : List Nat) : Prop :=
  match env1.jsonUnmarshal b1, env2.jsonUnmarshal b2 with
  | .error _, .error _ => True
  | .ok m1, .ok m2 => m1 = m2
  | _, _ => False

/-- Two answers to `http.Get` that fail alike or carry the same status
and bodies related by `R`. -/
def SameResponse (R : List Nat → List Nat → Prop) : HttpResult → HttpResult → Prop
  | .getError _, .getError _ => True
  | .response c1 b1, .response c2 b2 =>
    c1 = c2 ∧
      match b1, b2 with
      | none, none => True
      | some x, some y => R x y
      | _, _ => False
  | _, _ => False

/-- Two runs over the same batches that differ only in the rolling-period
values of their key records: the same metadata, and for every batch the same
answer with the same archive up to rolling-period values. -/
def SameEnvButRollingPeriod (env1 env2 : Env) : Prop :=
  SameResponse (SameIndex env1 env2) (env1.httpGet indexUrl) (env2.httpGet indexUrl) ∧
    ∀ keys : Int, SameResponse (SameArchiveButRollingPeriod env1 env2)
      (env1.httpGet (batchUrl keys)) (env2.httpGet (batchUrl keys))

/-- Two decoders that fail on the same payloads with the same error and
otherwise yield records that differ only in rolling-period values. -/
def SameDecodeButRollingPeriod
    (u1 u2 : List Nat → Except String TemporaryExposureKeyExport) : Prop :=
  ∀ payload,
    match u1 payload, u2 payload with
    | .ok r1, .ok r2 => SameRecordButRollingPeriod r1 r2
    | .error e1, .error e2 => e1 = e2
    | _, _ => False

/-- A trace without its rolling-period warnings and without the record of
the decoder calls (whose arguments are the payload bytes). -/
def quiet (trace : List Event) : List Event :=
  trace.filter (fun e =>
    match e with
    | .logRollingPeriod => false
    | .protoUnmarshal _ => false
    | _ => true)

/-- Two states with the same summary and the same effects apart from
rolling-period warnings and decoder calls. -/
def StateSim (st1 st2 : State) : Prop :=
  st1.summary = st2.summary ∧ quiet st1.trace = quiet st2.trace

/-- Two steps that end the same way in similar states. -/
def ExecSim : Exec State → Exec State → Prop
  | .ok st1, .ok st2 => StateSim st1 st2
  | .error (a1, st1), .error (a2, st2) => a1 = a2 ∧ StateSim st1 st2
  | _, _ => False

/-- Two runs that end the same way in similar states. -/
def RunSim : Run → Run → Prop
  | .done st1, .done st2 => StateSim st1 st2
  | .aborted a1 st1, .aborted a2 st2 => a1 = a2 ∧ StateSim st1 st2
  | .outOfFuel st1, .outOfFuel st2 => StateSim st1 st2
  | _, _ => False

/-! ## Sample environments -/

/-- A stand-in for `proto.Unmarshal` on the sample payloads, given by a
finite table of payloads and their records; as in protobuf, the empty payload
is the message with no field set; any payload not in the table is rejected. -/
def decodeTable (table : List (List Nat × TemporaryExposureKeyExport)) (payload : List Nat) :
    Except String TemporaryExposureKeyExport :=
  match table.lookup payload with
  | some r => .ok r
  | none => if payload = [] then .ok ⟨none, none, []⟩ else .error "proto: cannot parse"

/-- The bytes of a string. -/
def bytesOf (s : String) : List Nat := s.toList.map Char.toNat

/-- An environment given by finite tables: the index answers with
`metadata`; a batch listed in `batches` answers 200 with an archive holding
the listed entries, any other batch answers 404. -/
def sampleEnv (metadata : meta) (batches : List (Int × List ZipFile))
    (table : List (List Nat × TemporaryExposureKeyExport)) : Env where
  httpGet url :=
    if url = indexUrl then .response 200 (some (bytesOf url))
    else
      match batches.find? (fun b => batchUrl b.1 = url) with
      | some _ => .response 200 (some (bytesOf url))
      | none => .response 404 none
  jsonUnmarshal _ := .ok metadata
  zipNewReader body :=
    match batches.find? (fun b => bytesOf (batchUrl b.1) = body) with
    | some b => .ok b.2
    | none => .error "zip: not a valid zip file"
  protoUnmarshal := decodeTable table

/-- An archive member `export.bin` holding the magic followed by
`payload`. -/
def exportBin (payload : List Nat) : ZipFile :=
  ⟨"export.bin", .data (ByteSlice.ofBytes (hdr ++ payload))⟩

/-- A key with the canonical rolling period. -/
def key144 : TemporaryExposureKey := ⟨some 144, []⟩

/-- The record of the single-batch scenario: a ten-hour window and three
keys. -/
def tenHourRecord : TemporaryExposureKeyExport :=
  ⟨some 1700000000, some 1700036000, [key144, key144, key144]⟩

/-- The single-batch scenario: `oldest = 5`, `newest = 5`. -/
def singleBatchEnv : Env :=
  sampleEnv ⟨5, 5⟩ [(5, [exportBin [1]])] [([1], tenHourRecord)]

/-- A run whose only batch has an `export.bin` with a wrong magic (the
first two bytes are `XX`). -/
def badHeaderEnv : Env :=
  sampleEnv ⟨1, 1⟩ [(1, [⟨"export.bin", .data (ByteSlice.ofBytes (bytesOf "XX Export v1    "))⟩])] []

/-- A run whose only batch has an `export.bin` with the magic followed by
bytes that `proto.Unmarshal` rejects. -/
def badPayloadEnv : Env :=
  sampleEnv ⟨1, 1⟩ [(1, [exportBin [255]])] []

/-- A run whose only batch has an `export.bin` holding the magic and an
empty message: no field of the record is set. -/
def missingTimestampsEnv : Env :=
  sampleEnv ⟨1, 1⟩ [(1, [exportBin []])] []

/-- A run whose only batch has an `export.bin` whose record has a start
but no end timestamp. -/
def missingEndEnv : Env :=
  sampleEnv ⟨1, 1⟩ [(1, [exportBin [1]])] [([1], ⟨some 1700000000, none, [key144]⟩)]

/-- A run whose only batch has an archive without `export.bin`. -/
def missingMemberEnv : Env :=
  sampleEnv ⟨1, 1⟩ [(1, [⟨"readme.txt", .data (ByteSlice.ofBytes [104, 105])⟩])] []

/-- A run in which nothing is fatal: the index announces the single batch
`9223372036854775807`, every address answers 200 and every archive is readable
and empty. -/
def endlessEnv : Env where
  httpGet _ := .response 200 (some [])
  jsonUnmarshal _ := .ok ⟨maxInt, maxInt⟩
  zipNewReader _ := .ok []
  protoUnmarshal _ := .error "proto: cannot parse"

/-- A record with three keys whose rolling periods are not 144. -/
def oddPeriodsRecord : TemporaryExposureKeyExport :=
  ⟨some 1700000000, some 1700036000, [⟨some 143, []⟩, ⟨some 0, []⟩, ⟨some (-7), []⟩]⟩

/-- The single-batch scenario with the rolling periods of all three keys
changed. -/
def oddPeriodsEnv : Env :=
  sampleEnv ⟨5, 5⟩ [(5, [exportBin [1]])] [([1], oddPeriodsRecord)]

/-- A run over the batches 1 and 2 in which the archive of batch 1 lacks
`export.bin` and batch 2 holds the ten-hour record. -/
def missingOldestEnv : Env :=
  sampleEnv ⟨1, 2⟩
    [(1, [⟨"readme.txt", .data (ByteSlice.ofBytes [104, 105])⟩]), (2, [exportBin [1]])]
    [([1], tenHourRecord)]

/-- A run over the batches 1 and 2 whose records lie far apart: batch 1
starts at unix second 0, batch 2 ends at unix second 10000000000. -/
def farApartEnv : Env :=
  sampleEnv ⟨1, 2⟩ [(1, [exportBin [1]]), (2, [exportBin [2]])]
    [([1], ⟨some 0, some 3600, [key144]⟩),
     ([2], ⟨some 9999996400, some 10000000000, [key144, key144]⟩)]

/-- A run over the batches 1 and 2 that together cover ten hours and hold
three keys. -/
def tenHourEnv : Env :=
  sampleEnv ⟨1, 2⟩ [(1, [exportBin [1]]), (2, [exportBin [2]])]
    [([1], ⟨some 1700000000, some 1700018000, [key144]⟩),
     ([2], ⟨some 1700018000, some 1700036000, [key144, key144]⟩)]

/-- The single-batch scenario with an archive that holds two members named
`export.bin`, each with the ten-hour record. -/
def duplicateMemberEnv : Env :=
  sampleEnv ⟨5, 5⟩ [(5, [exportBin [1], exportBin [1]])] [([1], tenHourRecord)]

/-- The ten-hour record in which the second key does not carry a rolling
period (the field is optional on the wire). -/
def unsetPeriodRecord : TemporaryExposureKeyExport :=
  ⟨some 1700000000, some 1700036000, [key144, ⟨none, []⟩, key144]⟩

/-- The single-batch scenario with the rolling period of the second key
unset. -/
def unsetPeriodEnv : Env :=
  sampleEnv ⟨5, 5⟩ [(5, [exportBin [1]])] [([1], unsetPeriodRecord)]

/-! ## Basic lemmas -/

theorem hdr_eq : hdr = [69, 75, 32, 69, 120, 112, 111, 114, 116, 32, 118, 49, 32, 32, 32, 32] := by
  decide

theorem hdr_length : hdr.length = 16 := by
  rw [hdr_eq]; rfl

theorem bytesCompare_eq_zero_iff (a b : List Nat) : bytesCompare a b = 0 ↔ a = b := by
  induction a generalizing b with
  | nil => cases b <;> simp [bytesCompare]
  | cons x xs ih =>
    cases b with
    | nil => simp [bytesCompare]
    | cons y ys =>
      simp only [bytesCompare]
      by_cases h1 : x < y
      · simp [h1]; omega
      · by_cases h2 : y < x
        · simp [h1, h2]; omega
        · have : x = y := by omega
          simp [h1, h2, ih, this]

theorem ByteSlice.take_bytes_of_le (data : ByteSlice) (n : Nat) (h : n ≤ data.len) :
    data.bytes.take n = data.arr.take n := by
  simp [ByteSlice.bytes, List.take_take, h]

/-! ## `getTEKs` -/

/-- A payload of at least 16 bytes whose first 16 bytes are not the
magic: `getTEKs` returns `(nil, header error)` and makes no call to
`proto.Unmarshal`. -/
theorem getTEKs_of_header_ne (unmarshal : List Nat → Except String TemporaryExposureKeyExport)
    (data : ByteSlice) (hwf : data.WF) (hlen : 16 ≤ data.len)
    (hne : data.bytes.take 16 ≠ hdr) :
    getTEKs unmarshal data
      = ⟨[], .ok (none, some (.headerNotRecognized (data.bytes.take 16)))⟩ := by
  have hcap : 16 ≤ data.cap := le_trans hlen hwf
  have hb : data.bytes.take 16 = data.arr.take 16 := data.take_bytes_of_le 16 hlen
  have hcmp : bytesCompare (data.arr.take 16) hdr ≠ 0 := by
    rw [Ne, bytesCompare_eq_zero_iff, ← hb]; exact hne
  rw [hb]
  simp [getTEKs, ByteSlice.sliceTo, hcap, ByteSlice.bytes, hcmp]

/-! ## Steps of the pipeline -/

@[simp] theorem emit_summary (e : Event) (st : State) : (emit e st).summary = st.summary := rfl

@[simp] theorem emit_trace (e : Event) (st : State) : (emit e st).trace = st.trace ++ [e] := rfl

@[simp] theorem emit_total (e : Event) (st : State) : (emit e st).total = st.total := rfl

@[simp] theorem emit_firstTimestamp (e : Event) (st : State) :
    (emit e st).firstTimestamp = st.firstTimestamp := rfl

@[simp] theorem emit_lastTimestamp (e : Event) (st : State) :
    (emit e st).lastTimestamp = st.lastTimestamp := rfl

@[simp] theorem fetchedUrls_nil : fetchedUrls [] = [] := rfl

@[simp] theorem fetchedUrls_append (a b : List Event) :
    fetchedUrls (a ++ b) = fetchedUrls a ++ fetchedUrls b := by
  simp [fetchedUrls, List.filterMap_append]

@[simp] theorem fetchedUrls_map_protoUnmarshal (ps : List (List Nat)) :
    fetchedUrls (ps.map Event.protoUnmarshal) = [] := by
  induction ps with
  | nil => rfl
  | cons p ps ih =>
    simp only [List.map_cons, fetchedUrls, List.filterMap_cons]
    exact ih

theorem fetch_ok {env : Env} {url : String} {st st' : State} {b : List Nat}
    (h : fetch env url st = .ok (b, st')) :
    env.httpGet url = .response 200 (some b) ∧ st' = emit (.httpGet url) st := by
  unfold fetch at h
  split at h
  · cases h
  · rename_i statusCode body heq
    split at h
    · cases h
    · rename_i hcode
      have hcode : statusCode = 200 := by simpa using hcode
      subst hcode
      split at h
      · cases h
      · cases h
        exact ⟨heq, rfl⟩

theorem fetch_of_response {env : Env} {url : String} {b : List Nat} (st : State)
    (h : env.httpGet url = .response 200 (some b)) :
    fetch env url st = .ok (b, emit (.httpGet url) st) := by
  simp [fetch, h]

theorem fetch_error {env : Env} {url : String} {st st' : State} {a : Abort}
    (h : fetch env url st = .error (a, st')) :
    (∃ f, a = .fatal f) ∧ st' = emit (.httpGet url) st := by
  unfold fetch at h
  split at h
  · cases h; exact ⟨⟨_, rfl⟩, rfl⟩
  · split at h
    · cases h; exact ⟨⟨_, rfl⟩, rfl⟩
    · split at h
      · cases h; exact ⟨⟨_, rfl⟩, rfl⟩
      · cases h

theorem validateKeys_ok {ks : List TemporaryExposureKey} {st st' : State}
    (h : validateKeys ks st = .ok st') :
    st'.summary = st.summary ∧ fetchedUrls st'.trace = fetchedUrls st.trace := by
  induction ks generalizing st with
  | nil => simp only [validateKeys] at h; cases h; exact ⟨rfl, rfl⟩
  | cons k ks ih =>
    simp only [validateKeys] at h
    split at h
    · cases h
    · rename_i rp _
      have := ih h
      by_cases hrp : rp = 144
      · simpa [hrp] using this
      · simp only [hrp, ne_eq, not_false_eq_true, if_true] at this
        simpa [fetchedUrls] using this

theorem processFile_other (env : Env) (metadata : meta) (keys : Int) (url : String)
    (file : ZipFile) (st : State) (h : file.Name ≠ "export.bin") :
    processFile env metadata keys url file st = .ok st := by
  simp [processFile, h]

theorem processFile_ok_export {env : Env} {metadata : meta} {keys : Int} {url : String}
    {file : ZipFile} {st st' : State} (hname : file.Name = "export.bin")
    (h : processFile env metadata keys url file st = .ok st') :
    ∃ teks s e, recordOf env file = some teks ∧ teks.StartTimestamp = some s ∧
      teks.EndTimestamp = some e ∧
      st'.summary = foldRecord metadata keys st.summary teks ∧
      fetchedUrls st'.trace = fetchedUrls st.trace := by
  unfold processFile at h
  rw [if_pos hname] at h
  split at h
  · cases h
  · cases h
  · rename_i data hcontent
    simp only at h
    split at h
    · cases h
    · rename_i TEKs err hres
      split at h
      · cases h
      · rename_i teks
        split at h
        · cases h
        · rename_i st1 hval
          split at h
          · cases h
          · split at h
            · cases h
            · rename_i s hs
              split at h
              · cases h
              · rename_i e he
                have hv := validateKeys_ok hval
                refine ⟨teks, s, e, ?_, hs, he, ?_, ?_⟩
                · simp [recordOf, hcontent, hres]
                · cases h
                  obtain ⟨hsum, -⟩ := hv
                  simp only [State.summary, Summary.mk.injEq] at hsum
                  obtain ⟨h1, h2, h3⟩ := hsum
                  simp only [State.summary, foldRecord, hs, he, Option.getD_some]
                  split_ifs <;> simp [h1, h2, h3]
                · cases h
                  obtain ⟨-, htr⟩ := hv
                  split_ifs <;> simp [htr] <;> simp [fetchedUrls]

theorem processFiles_ok {env : Env} {metadata : meta} {keys : Int} {url : String}
    {files : List ZipFile} {st st' : State}
    (h : processFiles env metadata keys url files st = .ok st') :
    (∀ f ∈ files.filter (fun f => f.Name = "export.bin"), Decodes env f) ∧
    st'.summary = ((files.filter (fun f => f.Name = "export.bin")).filterMap
      (recordOf env)).foldl (foldRecord metadata keys) st.summary ∧
    fetchedUrls st'.trace = fetchedUrls st.trace := by
  induction files generalizing st with
  | nil => simp only [processFiles] at h; cases h; simp
  | cons file files ih =>
    simp only [processFiles] at h
    split at h
    · cases h
    · rename_i st1 h1
      obtain ⟨ihd, ihs, iht⟩ := ih h
      by_cases hname : file.Name = "export.bin"
      · obtain ⟨teks, s, e, hrec, hs, he, hsum, htr⟩ := processFile_ok_export hname h1
        refine ⟨?_, ?_, ?_⟩
        · intro f hf
          simp only [List.filter_cons, hname, decide_True, if_true, List.mem_cons] at hf
          rcases hf with rfl | hf
          · exact ⟨teks, s, e, hrec, hs, he⟩
          · exact ihd f hf
        · simp only [List.filter_cons, hname, decide_True, if_true, List.filterMap_cons, hrec,
            List.foldl_cons]
          rw [ihs, hsum]
        · rw [iht, htr]
      · rw [processFile_other _ _ _ _ _ _ hname] at h1
        cases h1
        refine ⟨?_, ?_, iht⟩
        · intro f hf
          simp only [List.filter_cons, hname, decide_False] at hf
          exact ihd f hf
        · simp only [List.filter_cons, hname, decide_False]
          exact ihs

theorem processBatch_ok {env : Env} {metadata : meta} {keys : Int} {st st' : State}
    (h : processBatch env metadata keys st = .ok st') :
    (∃ body files, env.httpGet (batchUrl keys) = .response 200 (some body) ∧
      env.zipNewReader body = .ok files) ∧
    (∀ f ∈ exportMembers env keys, Decodes env f) ∧
    st'.summary = (batchRecords env keys).foldl (foldRecord metadata keys) st.summary ∧
    fetchedUrls st'.trace = fetchedUrls st.trace ++ [batchUrl keys] := by
  unfold processBatch at h
  simp only at h
  split at h
  · cases h
  · rename_i keysBody st1 hf
    obtain ⟨hget, hst1⟩ := fetch_ok hf
    split at h
    · cases h
    · rename_i files hzip
      obtain ⟨hd, hs, ht⟩ := processFiles_ok h
      have hbf : batchFiles env keys = files := by simp [batchFiles, hget, hzip]
      refine ⟨⟨keysBody, files, hget, hzip⟩, ?_, ?_, ?_⟩
      · simpa [exportMembers, hbf] using hd
      · simp only [batchRecords, exportMembers, hbf]
        rw [hs, hst1]; rfl
      · rw [ht, hst1]; simp [fetchedUrls]

/-! ## The batch loop -/

theorem wrapInt_of_isInt {i : Int} (h : IsInt i) : wrapInt i = i := by
  unfold IsInt minInt maxInt at h
  unfold wrapInt
  omega

theorem wrapInt_isInt (i : Int) : IsInt (wrapInt i) := by
  unfold IsInt minInt maxInt wrapInt
  omega

theorem wrapInt_maxInt_succ : wrapInt (maxInt + 1) = minInt := by
  decide

theorem batchIds_of_lt {lo hi : Int} (h : hi < lo) : batchIds lo hi = [] := by
  have : (hi + 1 - lo).toNat = 0 := by omega
  simp [batchIds, this]

theorem batchIds_of_le {lo hi : Int} (h : lo ≤ hi) :
    batchIds lo hi = lo :: batchIds (lo + 1) hi := by
  have : (hi + 1 - lo).toNat = (hi + 1 - (lo + 1)).toNat + 1 := by omega
  simp only [batchIds, this, List.range_succ_eq_map, List.map_cons, List.map_map]
  simp only [Nat.cast_zero, add_zero, List.cons.injEq, true_and]
  apply List.map_congr_left
  intro a _
  simp only [Function.comp_apply, Nat.cast_succ]
  omega

theorem batchIds_length (lo hi : Int) : (batchIds lo hi).length = (hi + 1 - lo).toNat := by
  simp [batchIds]

/-- A loop that reports `done` has run `processBatch` on `keys, ..., Newest`
in this order, and `Newest` is below the largest `int`. -/
theorem batchLoop_done {env : Env} {metadata : meta} (hN : metadata.Newest ≤ maxInt)
    {fuel : Nat} {keys : Int} {st st' : State} (hk : IsInt keys)
    (h : batchLoop env metadata fuel keys st = .done st') :
    metadata.Newest < maxInt ∧
      runBatches env metadata (batchIds keys metadata.Newest) st = .ok st' := by
  induction fuel generalizing keys st with
  | zero => simp [batchLoop] at h
  | succ fuel ih =>
    simp only [batchLoop] at h
    split at h
    · rename_i hle
      split at h
      · cases h
      · rename_i st1 hp
        obtain ⟨hlt, hrun⟩ := ih (wrapInt_isInt _) h
        have hk1 : IsInt (keys + 1) := by
          unfold IsInt at hk ⊢
          constructor <;> omega
        rw [wrapInt_of_isInt hk1] at hrun
        refine ⟨hlt, ?_⟩
        rw [batchIds_of_le hle]
        simp only [runBatches, hp]
        exact hrun
    · rename_i hgt
      cases h
      have hgt : metadata.Newest < keys := by omega
      refine ⟨?_, ?_⟩
      · have := hk.2
        omega
      · rw [batchIds_of_lt hgt]; rfl

/-- With `Newest` below the largest `int` and enough fuel the loop is the fold
of `processBatch` over `keys, ..., Newest`. -/
theorem batchLoop_eq_runBatches (env : Env) (metadata : meta) (hN : metadata.Newest < maxInt)
    (fuel : Nat) (keys : Int) (st : State) (hk : IsInt keys)
    (hfuel : (metadata.Newest + 1 - keys).toNat < fuel) :
    batchLoop env metadata fuel keys st =
      match runBatches env metadata (batchIds keys metadata.Newest) st with
      | .ok st' => .done st'
      | .error (a, st') => .aborted a st' := by
  induction fuel generalizing keys st with
  | zero => omega
  | succ fuel ih =>
    simp only [batchLoop]
    split
    · rename_i hle
      rw [batchIds_of_le hle]
      simp only [runBatches]
      split
      · rename_i a st1 hp
        simp [hp]
      · rename_i st1 hp
        have hk1 : IsInt (keys + 1) := by
          unfold IsInt at hk ⊢
          constructor <;> omega
        rw [wrapInt_of_isInt hk1]
        simp only [hp]
        exact ih (keys + 1) st1 hk1 (by omega)
    · rename_i hgt
      have hgt : metadata.Newest < keys := by omega
      rw [batchIds_of_lt hgt]
      rfl

theorem runBatches_ok {env : Env} {metadata : meta} {ids : List Int} {st st' : State}
    (h : runBatches env metadata ids st = .ok st') :
    (∀ keys ∈ ids, ∀ f ∈ exportMembers env keys, Decodes env f) ∧
    st'.summary = foldBatches env metadata ids st.summary ∧
    fetchedUrls st'.trace = fetchedUrls st.trace ++ ids.map batchUrl := by
  induction ids generalizing st with
  | nil => simp only [runBatches] at h; cases h; simp [foldBatches]
  | cons keys ids ih =>
    simp only [runBatches] at h
    split at h
    · cases h
    · rename_i st1 hp
      obtain ⟨-, hd, hs, ht⟩ := processBatch_ok hp
      obtain ⟨ihd, ihs, iht⟩ := ih h
      refine ⟨?_, ?_, ?_⟩
      · intro k hk
        rcases List.mem_cons.1 hk with rfl | hk
        · exact hd
        · exact ihd k hk
      · rw [ihs, hs]; rfl
      · rw [iht, ht]; simp

/-- A run that completes: the metadata was read, is ordered, `Newest` is
below the largest `int`, and the final state is the report on the fold of
`processBatch` over `Oldest, ..., Newest`. -/
theorem main_done {env : Env} (hwf : env.WF) {fuel : Nat} {st : State}
    (h : main env fuel = .done st) :
    ∃ metadata st1, metadataOf env = some metadata ∧ metadata.Oldest ≤ metadata.Newest ∧
      metadata.Newest < maxInt ∧
      runBatches env metadata (batchIds metadata.Oldest metadata.Newest) (loopStart metadata)
        = .ok st1 ∧
      st = report st1 := by
  unfold main at h
  split at h
  · cases h
  · rename_i metaBody st0 hf
    obtain ⟨hget, hst0⟩ := fetch_ok hf
    split at h
    · cases h
    · rename_i metadata hjson
      simp only at h
      split at h
      · cases h
      · rename_i hle
        have hle : metadata.Oldest ≤ metadata.Newest := by omega
        obtain ⟨hO, hN⟩ := hwf _ _ hjson
        split at h
        · rename_i st1 hloop
          cases h
          obtain ⟨hlt, hrun⟩ := batchLoop_done hN.2 hO hloop
          refine ⟨metadata, st1, ?_, hle, hlt, ?_, rfl⟩
          · simp [metadataOf, hget, hjson]
          · rw [← hrun, hst0]; rfl
        · rename_i hr
          exact absurd h (hr st)

theorem outcome_done {r : Run} {s : Summary} (h : r.outcome = .done s) :
    ∃ st, r = .done st ∧ st.summary = s := by
  cases r with
  | done st => simp only [Run.outcome, Outcome.done.injEq] at h; exact ⟨st, rfl, h⟩
  | aborted a st => simp [Run.outcome] at h
  | outOfFuel st => simp [Run.outcome] at h

@[simp] theorem report_summary (st : State) : (report st).summary = st.summary := rfl

/-! ## The key total -/

theorem foldRecord_foldl_total (metadata : meta) (keys : Int)
    (recs : List TemporaryExposureKeyExport) (s : Summary) :
    (recs.foldl (foldRecord metadata keys) s).total % 2 ^ 64
      = (s.total + (recs.map (fun r => r.Keys.length)).sum) % 2 ^ 64 := by
  induction recs generalizing s with
  | nil => simp
  | cons r recs ih =>
    simp only [List.foldl_cons, List.map_cons, List.sum_cons]
    rw [ih]
    simp only [foldRecord, wrapUint64]
    omega

theorem foldRecord_foldl_total_lt (metadata : meta) (keys : Int)
    (recs : List TemporaryExposureKeyExport) (s : Summary) (h : s.total < 2 ^ 64) :
    (recs.foldl (foldRecord metadata keys) s).total < 2 ^ 64 := by
  induction recs generalizing s with
  | nil => simpa using h
  | cons r recs ih =>
    simp only [List.foldl_cons]
    apply ih
    simp only [foldRecord, wrapUint64]
    omega

/-- The number of keys contributed by all records of the batches `ids`. -/
theorem foldBatches_total (env : Env) (metadata : meta) (ids : List Int) (s : Summary) :
    (foldBatches env metadata ids s).total % 2 ^ 64
      = (s.total + (ids.map (fun keys =>
          ((batchRecords env keys).map (fun r => r.Keys.length)).sum)).sum) % 2 ^ 64 := by
  induction ids generalizing s with
  | nil => simp [foldBatches]
  | cons keys ids ih =>
    have ih' := ih ((batchRecords env keys).foldl (foldRecord metadata keys) s)
    have h1 := foldRecord_foldl_total metadata keys (batchRecords env keys) s
    simp only [foldBatches, List.foldl_cons, List.map_cons, List.sum_cons] at ih' ⊢
    rw [ih']
    omega

theorem foldBatches_total_lt (env : Env) (metadata : meta) (ids : List Int) (s : Summary)
    (h : s.total < 2 ^ 64) : (foldBatches env metadata ids s).total < 2 ^ 64 := by
  induction ids generalizing s with
  | nil => simpa [foldBatches] using h
  | cons keys ids ih =>
    simp only [foldBatches, List.foldl_cons]
    exact ih _ (foldRecord_foldl_total_lt metadata keys _ s h)

theorem batchRecords_of_single (env : Env) (keys : Int)
    (h : (exportMembers env keys).length ≤ 1) :
    batchRecords env keys = (extracted env keys).toList := by
  unfold batchRecords extracted
  match hm : exportMembers env keys with
  | [] => simp
  | [f] =>
    simp only [List.filterMap_cons, List.filterMap_nil]
    cases recordOf env f <;> simp
  | f :: g :: rest => rw [hm] at h; simp at h

theorem extractedKeyCount_eq (env : Env) (ids : List Int)
    (h : ∀ keys ∈ ids, (exportMembers env keys).length ≤ 1) :
    (ids.map (fun keys => ((batchRecords env keys).map (fun r => r.Keys.length)).sum)).sum
      = extractedKeyCount env ids := by
  induction ids with
  | nil => simp [extractedKeyCount]
  | cons keys ids ih =>
    have ih := ih (fun k hk => h k (List.mem_cons_of_mem _ hk))
    have h1 := batchRecords_of_single env keys (h keys (List.mem_cons_self _ _))
    simp only [List.map_cons, List.sum_cons, ih, h1, extractedKeyCount, List.filterMap_cons]
    cases extracted env keys <;> simp [extractedKeyCount]

theorem sampleEnv_WF (metadata : meta) (batches : List (Int × List ZipFile))
    (table : List (List Nat × TemporaryExposureKeyExport))
    (h : IsInt metadata.Oldest ∧ IsInt metadata.Newest) :
    (sampleEnv metadata batches table).WF := by
  intro body m hm
  simp only [sampleEnv, Except.ok.injEq] at hm
  subst hm
  exact h

/-- For a run that completes, `total` is, modulo `2^64`, the number of
keys of all records decoded from members named `export.bin`. -/
theorem main_total_eq_memberKeyCount (env : Env) (hwf : env.WF) (metadata : meta)
    (hmeta : metadataOf env = some metadata) (fuel : Nat) (s : Summary)
    (hdone : (main env fuel).outcome = .done s) :
    s.total = wrapUint64 (memberKeyCount env (batchIds metadata.Oldest metadata.Newest)) := by
  obtain ⟨st, hrun, hsum⟩ := outcome_done hdone
  obtain ⟨m, st1, hm, -, -, hfold, hst⟩ := main_done hwf hrun
  rw [hmeta] at hm
  cases hm
  obtain ⟨-, hs1, -⟩ := runBatches_ok hfold
  have htot : s.total = (foldBatches env metadata
      (batchIds metadata.Oldest metadata.Newest) (loopStart metadata).summary).total := by
    rw [← hsum, hst, report_summary, hs1]
  have h0 : (loopStart metadata).summary.total = 0 := rfl
  have hlt := foldBatches_total_lt env metadata (batchIds metadata.Oldest metadata.Newest)
    (loopStart metadata).summary (by rw [h0]; decide)
  have hmod := foldBatches_total env metadata (batchIds metadata.Oldest metadata.Newest)
    (loopStart metadata).summary
  rw [h0, Nat.zero_add, ← htot] at hmod
  rw [← htot] at hlt
  unfold wrapUint64 memberKeyCount
  rw [← hmod]
  exact (Nat.mod_eq_of_lt hlt).symm

/-- With at most one member named `export.bin` in every archive, counting
per member and counting per batch agree. -/
theorem memberKeyCount_of_single (env : Env) (ids : List Int)
    (h : ∀ keys ∈ ids, (exportMembers env keys).length ≤ 1) :
    memberKeyCount env ids = extractedKeyCount env ids :=
  extractedKeyCount_eq env ids h

/-- For a run that completes over archives that each hold at most one
member named `export.bin`, `total` is the sum of `len(record.keys)` over the
batches whose `export.bin` was extracted, each counted once (modulo `2^64`). -/
theorem main_total_of_single_members (env : Env) (hwf : env.WF) (metadata : meta)
    (hmeta : metadataOf env = some metadata) (fuel : Nat) (s : Summary)
    (hdone : (main env fuel).outcome = .done s)
    (hsingle : ∀ keys ∈ batchIds metadata.Oldest metadata.Newest,
      (exportMembers env keys).length ≤ 1) :
    s.total = wrapUint64 (extractedKeyCount env (batchIds metadata.Oldest metadata.Newest)) := by
  rw [← memberKeyCount_of_single env _ hsingle]
  exact main_total_eq_memberKeyCount env hwf metadata hmeta fuel s hdone

/-- C5 (as amended): for a run that completes, the final `total` is the
sum of `len(record.keys)` over every member named `export.bin` extracted from
the batches of `[Oldest, Newest]`, each member counted once, as a `uint64`
(modulo `2^64`, and that sum itself whenever it fits in a `uint64`); an archive
with several such members contributes once per member, and when every archive
holds at most one such member this is the sum over the batches whose
`export.bin` was extracted of the key count of the batch's single record. -/
theorem main_total_counts_every_export_member (env : Env) (hwf : env.WF) (metadata : meta)
    (hmeta : metadataOf env = some metadata) (fuel : Nat) (s : Summary)
    (hdone : (main env fuel).outcome = .done s) :
    s.total = wrapUint64 (memberKeyCount env (batchIds metadata.Oldest metadata.Newest)) ∧
    (memberKeyCount env (batchIds metadata.Oldest metadata.Newest) < 2 ^ 64 →
      s.total = memberKeyCount env (batchIds metadata.Oldest metadata.Newest)) ∧
    ((∀ keys ∈ batchIds metadata.Oldest metadata.Newest,
        (exportMembers env keys).length ≤ 1) →
      memberKeyCount env (batchIds metadata.Oldest metadata.Newest)
        = extractedKeyCount env (batchIds metadata.Oldest metadata.Newest)) := by
  have hw := main_total_eq_memberKeyCount env hwf metadata hmeta fuel s hdone
  refine ⟨hw, fun hfit => ?_, fun hsingle => memberKeyCount_of_single env _ hsingle⟩
  rw [hw]
  exact Nat.mod_eq_of_lt hfit

/-- The run over batches 1 and 2 in which batch 1 has no `export.bin`
completes with the three keys of batch 2: the skipped batch contributes
nothing, and the only member of batch 2 is counted once. -/
theorem main_total_counts_every_export_member_witness :
    (main missingOldestEnv 3).outcome = .done ⟨3, Time.zero, timeUnix 1700036000⟩ ∧
    extracted missingOldestEnv 1 = none ∧
    extracted missingOldestEnv 2 = some tenHourRecord ∧
    memberKeyCount missingOldestEnv (batchIds 1 2) = 3 ∧
    extractedKeyCount missingOldestEnv (batchIds 1 2) = 3 ∧
    (3 : Nat) = wrapUint64 (memberKeyCount missingOldestEnv (batchIds 1 2)) :=
  ⟨by decide, by decide, by decide, by decide, by decide,
    (main_total_counts_every_export_member missingOldestEnv
      (sampleEnv_WF _ _ _ (by decide)) ⟨1, 2⟩ (by decide) 3
      ⟨3, Time.zero, timeUnix 1700036000⟩ (by decide)).1⟩

/-- C5 (counterexample): the single-batch run whose archive holds two
members named `export.bin`, each with the three-key record, completes with
`total = 6`: the batch contributes the key count of its record twice, while the
sum over the extracted batches, each counted once, is 3. -/
theorem main_total_counts_duplicate_members :
    (exportMembers duplicateMemberEnv 5).length = 2 ∧
    (main duplicateMemberEnv 2).outcome = .done ⟨6, timeUnix 1700000000, Time.zero⟩ ∧
    extracted duplicateMemberEnv 5 = some tenHourRecord ∧
    tenHourRecord.Keys.length = 3 ∧
    extractedKeyCount duplicateMemberEnv (batchIds 5 5) = 3 ∧
    memberKeyCount duplicateMemberEnv (batchIds 5 5) = 6 := by
  refine ⟨by decide, by decide, by decide, by decide, by decide, by decide⟩

/-! ## Header check -/

/-- C2: for a payload of at least 16 bytes whose first 16 bytes are not
the magic `"EK Export v1"` followed by four spaces, `getTEKs` returns a nil
record together with the header error (which carries those 16 bytes) and makes
no call to `proto.Unmarshal`. -/
theorem getTEKs_header_mismatch
    (unmarshal : List Nat → Except String TemporaryExposureKeyExport)
    (data : ByteSlice) (hwf : data.WF) (hlen : 16 ≤ data.len)
    (hne : data.bytes.take 16 ≠ hdr) :
    (getTEKs unmarshal data).result
      = .ok (none, some (.headerNotRecognized (data.bytes.take 16))) ∧
    (getTEKs unmarshal data).unmarshalCalls = [] := by
  rw [getTEKs_of_header_ne unmarshal data hwf hlen hne]
  exact ⟨rfl, rfl⟩

/-- The magic is case-sensitive: a lower-case header followed by a
payload is rejected without decoding. -/
theorem getTEKs_header_mismatch_witness :
    (getTEKs (decodeTable [([1], tenHourRecord)])
        (ByteSlice.ofBytes (bytesOf "ek export v1    " ++ [1]))).result
      = .ok (none, some (.headerNotRecognized (bytesOf "ek export v1    "))) ∧
    (getTEKs (decodeTable [([1], tenHourRecord)])
        (ByteSlice.ofBytes (bytesOf "ek export v1    " ++ [1]))).unmarshalCalls = [] :=
  getTEKs_header_mismatch (decodeTable [([1], tenHourRecord)])
    (ByteSlice.ofBytes (bytesOf "ek export v1    " ++ [1])) (by decide) (by decide) (by decide)

/-- A payload shorter than 16 bytes never reaches `proto.Unmarshal`; the
call panics on `data[:16]` when the capacity is below 16, panics on
`data[16:]` when the 16 bytes of the backing array happen to be the magic, and
otherwise returns the header error with 16 bytes of the backing array. -/
theorem getTEKs_short (unmarshal : List Nat → Except String TemporaryExposureKeyExport)
    (data : ByteSlice) (hlen : data.len < 16) :
    getTEKs unmarshal data =
      if data.cap < 16 then ⟨[], .error .sliceBoundsOutOfRange⟩
      else if data.arr.take 16 = hdr then ⟨[], .error .sliceBoundsOutOfRange⟩
      else ⟨[], .ok (none, some (.headerNotRecognized (data.arr.take 16)))⟩ := by
  by_cases hcap : data.cap < 16
  · have : ¬ 16 ≤ data.cap := by omega
    simp [getTEKs, ByteSlice.sliceTo, hcap, this]
  · have hc : 16 ≤ data.cap := by omega
    have hl : ¬ 16 ≤ data.len := by omega
    by_cases hh : data.arr.take 16 = hdr
    · have h0 : bytesCompare hdr hdr = 0 := (bytesCompare_eq_zero_iff _ _).2 rfl
      simp [getTEKs, ByteSlice.sliceTo, ByteSlice.sliceFrom, hc, hcap, hl, hh, ByteSlice.bytes,
        h0]
    · have : bytesCompare (List.take 16 data.arr) hdr ≠ 0 := by
        rw [Ne, bytesCompare_eq_zero_iff]; exact hh
      simp [getTEKs, ByteSlice.sliceTo, hc, hcap, hh, ByteSlice.bytes, this]

/-- C3 (evaluation): on the empty payload `[]byte{}` the expression
`data[:16]` panics with "slice bounds out of range"; no error is returned. -/
theorem getTEKs_empty_payload_panics
    (unmarshal : List Nat → Except String TemporaryExposureKeyExport) :
    (getTEKs unmarshal (ByteSlice.ofBytes [])).result = .error .sliceBoundsOutOfRange ∧
    (getTEKs unmarshal (ByteSlice.ofBytes [69, 75, 32])).result
      = .error .sliceBoundsOutOfRange := by
  constructor
  · rw [getTEKs_short unmarshal _ (by decide)]; rfl
  · rw [getTEKs_short unmarshal _ (by decide)]; rfl

/-! ## Batches without `export.bin` -/

theorem processFiles_without_export (env : Env) (metadata : meta) (keys : Int) (url : String)
    (files : List ZipFile) (st : State) (hno : ∀ f ∈ files, f.Name ≠ "export.bin") :
    processFiles env metadata keys url files st = .ok st := by
  induction files with
  | nil => rfl
  | cons f files ih =>
    simp only [processFiles]
    rw [processFile_other _ _ _ _ _ _ (hno f (List.mem_cons_self _ _))]
    exact ih (fun g hg => hno g (List.mem_cons_of_mem _ hg))

theorem processBatch_of_no_export (env : Env) (metadata : meta) (keys : Int) (st : State)
    (body : List Nat) (files : List ZipFile)
    (hget : env.httpGet (batchUrl keys) = .response 200 (some body))
    (hzip : env.zipNewReader body = .ok files)
    (hno : ∀ f ∈ files, f.Name ≠ "export.bin") :
    processBatch env metadata keys st
      = .ok (emit (.httpGet (batchUrl keys)) (emit (.logFetching (batchUrl keys)) st)) := by
  unfold processBatch
  simp only [fetch_of_response _ hget, hzip]
  exact processFiles_without_export env metadata keys _ files _ hno

theorem batchLoop_step_of_ok (env : Env) (metadata : meta) (fuel : Nat) (keys : Int)
    (st st' : State) (hle : keys ≤ metadata.Newest)
    (hp : processBatch env metadata keys st = .ok st') :
    batchLoop env metadata (fuel + 1) keys st
      = batchLoop env metadata fuel (wrapInt (keys + 1)) st' := by
  simp only [batchLoop, hle, if_true, hp]

/-- C8: a batch that is fetched with status 200 and whose archive is
readable but has no member named exactly `export.bin` is processed without
abort; its only effects are the log line and the fetch, so `total`,
`firstTimestamp` and `lastTimestamp` are unchanged, and the loop goes on with
the incremented counter. -/
theorem processBatch_without_export (env : Env) (metadata : meta) (keys : Int) (st : State)
    (body : List Nat) (files : List ZipFile)
    (hget : env.httpGet (batchUrl keys) = .response 200 (some body))
    (hzip : env.zipNewReader body = .ok files)
    (hno : ∀ f ∈ files, f.Name ≠ "export.bin") :
    processBatch env metadata keys st
      = .ok (emit (.httpGet (batchUrl keys)) (emit (.logFetching (batchUrl keys)) st)) ∧
    (emit (.httpGet (batchUrl keys)) (emit (.logFetching (batchUrl keys)) st)).summary
      = st.summary ∧
    ∀ fuel, keys ≤ metadata.Newest →
      batchLoop env metadata (fuel + 1) keys st
        = batchLoop env metadata fuel (wrapInt (keys + 1))
            (emit (.httpGet (batchUrl keys)) (emit (.logFetching (batchUrl keys)) st)) :=
  ⟨processBatch_of_no_export env metadata keys st body files hget hzip hno, rfl,
    fun fuel hle => batchLoop_step_of_ok env metadata fuel keys st _ hle
      (processBatch_of_no_export env metadata keys st body files hget hzip hno)⟩

/-- The scenario `oldest = 1, newest = 1` with an archive that lacks
`export.bin`: the batch leaves the summary alone and the run completes with
`total = 0` and both timestamps unset. -/
theorem processBatch_without_export_witness :
    (processBatch missingMemberEnv ⟨1, 1⟩ 1 (loopStart ⟨1, 1⟩)
      = .ok (emit (.httpGet (batchUrl 1)) (emit (.logFetching (batchUrl 1)) (loopStart ⟨1, 1⟩)))) ∧
    (main missingMemberEnv 2).outcome = .done ⟨0, Time.zero, Time.zero⟩ :=
  ⟨(processBatch_without_export missingMemberEnv ⟨1, 1⟩ 1 (loopStart ⟨1, 1⟩)
      (bytesOf (batchUrl 1)) [⟨"readme.txt", .data (ByteSlice.ofBytes [104, 105])⟩]
      (by decide) (by decide) (by decide)).1,
    by decide⟩

/-! ## Decode errors and unset fields -/

/-- With the magic in place `getTEKs` hands the bytes from offset 16 to
`proto.Unmarshal` and returns what it yields; the record is not inspected. -/
theorem getTEKs_of_header_eq (unmarshal : List Nat → Except String TemporaryExposureKeyExport)
    (data : ByteSlice) (hwf : data.WF) (hlen : 16 ≤ data.len)
    (hhdr : data.bytes.take 16 = hdr) :
    getTEKs unmarshal data =
      match unmarshal (data.bytes.drop 16) with
      | .error e => ⟨[data.bytes.drop 16], .ok (none, some (.unmarshalFailed e))⟩
      | .ok teks => ⟨[data.bytes.drop 16], .ok (some teks, none)⟩ := by
  have hcap : 16 ≤ data.cap := le_trans hlen hwf
  have hb : data.arr.take 16 = hdr := by rw [← data.take_bytes_of_le 16 hlen]; exact hhdr
  have h0 : bytesCompare hdr hdr = 0 := (bytesCompare_eq_zero_iff _ _).2 rfl
  have hd : List.take (data.len - 16) (List.drop 16 data.arr) = data.bytes.drop 16 := by
    simp [ByteSlice.bytes, List.drop_take]
  simp only [getTEKs, ByteSlice.sliceTo, hcap, if_true, ByteSlice.bytes, hb, h0, ne_eq,
    not_true_eq_false, if_false, ByteSlice.sliceFrom, hlen, hd]

/-- An error from `getTEKs` always comes with a nil record. -/
theorem getTEKs_error_nil {unmarshal : List Nat → Except String TemporaryExposureKeyExport}
    {data : ByteSlice} {t : Option TemporaryExposureKeyExport} {e : TEKError}
    (h : (getTEKs unmarshal data).result = .ok (t, some e)) : t = none := by
  unfold getTEKs at h
  split at h
  · cases h
  · split at h
    · cases h; rfl
    · split at h
      · cases h
      · split at h
        · cases h; rfl
        · cases h

/-- Whenever `getTEKs` returns an error for the content of `export.bin`,
`processFile` ends in the nil dereference of `TEKs.Keys` (main.go 96), before
the `log.Fatalf` of main.go 103 is reached. -/
theorem processFile_getTEKs_error (env : Env) (metadata : meta) (keys : Int) (url : String)
    (file : ZipFile) (st : State) (data : ByteSlice)
    (t : Option TemporaryExposureKeyExport) (e : TEKError)
    (hname : file.Name = "export.bin") (hcontent : file.content = .data data)
    (hres : (getTEKs env.protoUnmarshal data).result = .ok (t, some e)) :
    ∃ st', processFile env metadata keys url file st
      = .error (.panic .nilPointerDereference, st') ∧ st'.summary = st.summary := by
  have ht := getTEKs_error_nil hres
  subst ht
  refine ⟨{ st with trace := st.trace ++
    (getTEKs env.protoUnmarshal data).unmarshalCalls.map Event.protoUnmarshal }, ?_, rfl⟩
  simp only [processFile, hname, if_true, hcontent, hres]

/-- C4 (evaluation): a batch whose `export.bin` has a wrong magic, or a
payload that `proto.Unmarshal` rejects, makes `getTEKs` return an error; the
run then stops with a nil pointer dereference, not with the `log.Fatalf` that
reports that error. -/
theorem main_getTEKs_error_panics :
    (getTEKs badHeaderEnv.protoUnmarshal
        (ByteSlice.ofBytes (bytesOf "XX Export v1    "))).result
      = .ok (none, some (.headerNotRecognized (bytesOf "XX Export v1    "))) ∧
    (main badHeaderEnv 2).outcome
      = .aborted (.panic .nilPointerDereference) ⟨0, Time.zero, Time.zero⟩ ∧
    (getTEKs badPayloadEnv.protoUnmarshal (ByteSlice.ofBytes (hdr ++ [255]))).result
      = .ok (none, some (.unmarshalFailed "proto: cannot parse")) ∧
    (main badPayloadEnv 2).outcome
      = .aborted (.panic .nilPointerDereference) ⟨0, Time.zero, Time.zero⟩ := by
  refine ⟨by decide, by decide, by decide, by decide⟩

/-- C9 (evaluation): for a payload with the magic whose record has no
`start_timestamp` or no `end_timestamp`, `getTEKs` returns the record with a
nil error; the run then stops with a nil pointer dereference at main.go 107 or
108. -/
theorem getTEKs_accepts_missing_timestamps :
    (getTEKs missingTimestampsEnv.protoUnmarshal (ByteSlice.ofBytes hdr)).result
      = .ok (some ⟨none, none, []⟩, none) ∧
    (main missingTimestampsEnv 2).outcome
      = .aborted (.panic .nilPointerDereference) ⟨0, Time.zero, Time.zero⟩ ∧
    (getTEKs missingEndEnv.protoUnmarshal (ByteSlice.ofBytes (hdr ++ [1]))).result
      = .ok (some ⟨some 1700000000, none, [key144]⟩, none) ∧
    (main missingEndEnv 2).outcome
      = .aborted (.panic .nilPointerDereference) ⟨0, Time.zero, Time.zero⟩ := by
  refine ⟨by decide, by decide, by decide, by decide⟩

/-! ## The identifiers fetched by the loop -/

theorem batchIds_pairwise (lo hi : Int) : (batchIds lo hi).Pairwise (· < ·) := by
  unfold batchIds
  rw [List.pairwise_map]
  refine (List.pairwise_lt_range _).imp ?_
  intro a b hab
  omega

/-- With `Newest` equal to the largest `int` the loop never reports
`done`: the counter wraps around to the smallest `int` and stays at or below
`Newest`. -/
theorem batchLoop_never_done_of_maxInt (env : Env) (metadata : meta)
    (hN : metadata.Newest = maxInt) (fuel : Nat) (keys : Int) (st st' : State)
    (hk : IsInt keys) : batchLoop env metadata fuel keys st ≠ .done st' := by
  intro h
  have := (batchLoop_done (le_of_eq hN) hk h).1
  omega

/-- For metadata with `Oldest ≤ Newest < 9223372036854775807`, enough
fuel and no abort, the run completes and has fetched the index and then
exactly the batches `Oldest, Oldest+1, ..., Newest`, in ascending order, each
once. -/
theorem main_fetches_range (env : Env) (hwf : env.WF) (metadata : meta)
    (hmeta : metadataOf env = some metadata) (hle : metadata.Oldest ≤ metadata.Newest)
    (hN : metadata.Newest < maxInt) (fuel : Nat)
    (hfuel : (metadata.Newest + 1 - metadata.Oldest).toNat < fuel)
    (hno : ∀ a st, main env fuel ≠ .aborted a st) :
    ∃ st, main env fuel = .done st ∧
      fetchedUrls st.trace
        = indexUrl :: (batchIds metadata.Oldest metadata.Newest).map batchUrl ∧
      (batchIds metadata.Oldest metadata.Newest).length
        = (metadata.Newest - metadata.Oldest + 1).toNat ∧
      (batchIds metadata.Oldest metadata.Newest).Pairwise (· < ·) := by
  unfold metadataOf at hmeta
  split at hmeta
  · rename_i statusCode body hget
    split at hmeta
    · rename_i hcode
      subst hcode
      split at hmeta
      · rename_i m hjson
        cases hmeta
        obtain ⟨hO, -⟩ := hwf _ _ hjson
        have hloop := batchLoop_eq_runBatches env metadata hN fuel metadata.Oldest
          (loopStart metadata) hO hfuel
        have hmain : main env fuel =
            match batchLoop env metadata fuel metadata.Oldest (loopStart metadata) with
            | .done st => .done (report st)
            | r => r := by
          unfold main
          simp only [fetch_of_response _ hget, hjson]
          rw [if_neg (by omega)]
          rfl
        match hrun : runBatches env metadata (batchIds metadata.Oldest metadata.Newest)
            (loopStart metadata) with
        | .error (a, st1) =>
          rw [hrun] at hloop
          rw [hloop] at hmain
          exact absurd hmain (hno a st1)
        | .ok st1 =>
          rw [hrun] at hloop
          rw [hloop] at hmain
          obtain ⟨-, -, htr⟩ := runBatches_ok hrun
          refine ⟨report st1, hmain, ?_, ?_, batchIds_pairwise _ _⟩
          · simp only [report, emit_trace, fetchedUrls_append, htr]
            simp [fetchedUrls, loopStart, State.init, emit]
          · rw [batchIds_length]
            congr 1
            omega
      · cases hmeta
    · cases hmeta
  · cases hmeta

theorem batchLoop_endlessEnv (fuel : Nat) (keys : Int) (st : State) (hk : IsInt keys) :
    ∃ st', batchLoop endlessEnv ⟨maxInt, maxInt⟩ fuel keys st = .outOfFuel st' := by
  induction fuel generalizing keys st with
  | zero => exact ⟨st, rfl⟩
  | succ fuel ih =>
    rw [batchLoop_step_of_ok endlessEnv ⟨maxInt, maxInt⟩ fuel keys st _ hk.2
      (processBatch_of_no_export endlessEnv ⟨maxInt, maxInt⟩ keys st [] [] rfl rfl (by simp))]
    exact ih _ _ (wrapInt_isInt _)

/-- C7 (evaluation): with `Oldest = Newest = 9223372036854775807` and no
fatal error anywhere, the run is still inside the batch loop after any number
of iterations, and its second batch fetch is for `-9223372036854775808`, an
identifier outside `[Oldest, Newest]`. -/
theorem main_maxInt_never_terminates :
    (∀ fuel, ∃ st, main endlessEnv fuel = .outOfFuel st) ∧
    fetchedUrls (main endlessEnv 2).trace
      = [indexUrl, "https://get.immuni.gov.it/v1/keys/9223372036854775807",
          "https://get.immuni.gov.it/v1/keys/-9223372036854775808"] := by
  constructor
  · intro fuel
    obtain ⟨st', h⟩ := batchLoop_endlessEnv fuel maxInt (loopStart ⟨maxInt, maxInt⟩) (by decide)
    refine ⟨st', ?_⟩
    have : main endlessEnv fuel =
        match batchLoop endlessEnv ⟨maxInt, maxInt⟩ fuel maxInt (loopStart ⟨maxInt, maxInt⟩) with
        | .done st => .done (report st)
        | r => r := rfl
    rw [this, h]
  · decide

/-! ## Rolling-period values do not steer the run -/

theorem quiet_append (a b : List Event) : quiet (a ++ b) = quiet a ++ quiet b := by
  simp [quiet, List.filter_append]

theorem quiet_map_protoUnmarshal (ps : List (List Nat)) :
    quiet (ps.map Event.protoUnmarshal) = [] := by
  induction ps with
  | nil => rfl
  | cons p ps ih =>
    simp only [List.map_cons, quiet, List.filter_cons]
    exact ih

theorem stateSim_refl (st : State) : StateSim st st := ⟨rfl, rfl⟩

theorem stateSim_emit {st1 st2 : State} (h : StateSim st1 st2) (e : Event) :
    StateSim (emit e st1) (emit e st2) := by
  obtain ⟨hs, ht⟩ := h
  refine ⟨by simpa using hs, ?_⟩
  simp only [emit_trace, quiet_append, ht]

theorem stateSim_emit_left {st1 st2 : State} (h : StateSim st1 st2) :
    StateSim (emit .logRollingPeriod st1) st2 := by
  obtain ⟨hs, ht⟩ := h
  refine ⟨by simpa using hs, ?_⟩
  simp only [emit_trace, quiet_append, ht]
  simp [quiet]

theorem stateSim_emit_right {st1 st2 : State} (h : StateSim st1 st2) :
    StateSim st1 (emit .logRollingPeriod st2) := by
  obtain ⟨hs, ht⟩ := h
  refine ⟨by simpa using hs, ?_⟩
  simp only [emit_trace, quiet_append, ht]
  simp [quiet]

theorem stateSim_total {st1 st2 : State} (h : StateSim st1 st2) : st1.total = st2.total :=
  congrArg Summary.total h.1

theorem stateSim_first {st1 st2 : State} (h : StateSim st1 st2) :
    st1.firstTimestamp = st2.firstTimestamp :=
  congrArg Summary.firstTimestamp h.1

theorem stateSim_last {st1 st2 : State} (h : StateSim st1 st2) :
    st1.lastTimestamp = st2.lastTimestamp :=
  congrArg Summary.lastTimestamp h.1

theorem stateSim_append_calls {st1 st2 : State} (h : StateSim st1 st2)
    (c1 c2 : List (List Nat)) :
    StateSim { st1 with trace := st1.trace ++ c1.map Event.protoUnmarshal }
      { st2 with trace := st2.trace ++ c2.map Event.protoUnmarshal } := by
  obtain ⟨hs, ht⟩ := h
  refine ⟨hs, ?_⟩
  simp only [quiet_append, ht, quiet_map_protoUnmarshal]

theorem validateKeys_sim {ks1 ks2 : List TemporaryExposureKey}
    (hk : List.Forall₂ SameKeyButRollingPeriod ks1 ks2) {st1 st2 : State}
    (h : StateSim st1 st2) : ExecSim (validateKeys ks1 st1) (validateKeys ks2 st2) := by
  induction hk generalizing st1 st2 with
  | nil => exact h
  | @cons k1 k2 l1 l2 hkk _ ih =>
    obtain ⟨-, hsome⟩ := hkk
    simp only [validateKeys]
    cases h1 : k1.RollingPeriod with
    | none =>
      rw [h1] at hsome
      cases h2 : k2.RollingPeriod with
      | none => exact ⟨rfl, h⟩
      | some v => rw [h2] at hsome; simp at hsome
    | some v1 =>
      rw [h1] at hsome
      cases h2 : k2.RollingPeriod with
      | none => rw [h2] at hsome; simp at hsome
      | some v2 =>
        apply ih
        by_cases hv1 : v1 = 144 <;> by_cases hv2 : v2 = 144 <;> simp only [hv1, hv2, ne_eq,
          not_true_eq_false, not_false_eq_true, if_true, if_false]
        · exact h
        · exact stateSim_emit_right h
        · exact stateSim_emit_left h
        · exact stateSim_emit h .logRollingPeriod

/-- The three ways in which `getTEKs` ends. -/
theorem getTEKs_shape (u : List Nat → Except String TemporaryExposureKeyExport)
    (d : ByteSlice) :
    (∃ p, (getTEKs u d).result = .error p) ∨
    (∃ e, (getTEKs u d).result = .ok (none, some e)) ∨
    (∃ t, (getTEKs u d).result = .ok (some t, none)) := by
  unfold getTEKs
  cases d.sliceTo 16 with
  | none => exact .inl ⟨_, rfl⟩
  | some head =>
    try dsimp only
    by_cases hc : bytesCompare head.bytes hdr ≠ 0
    · rw [if_pos hc]
      exact .inr (.inl ⟨_, rfl⟩)
    · rw [if_neg hc]
      cases d.sliceFrom 16 with
      | none => exact .inl ⟨_, rfl⟩
      | some body =>
        try dsimp only
        cases u body.bytes with
        | error e => exact .inr (.inl ⟨_, rfl⟩)
        | ok r => exact .inr (.inr ⟨_, rfl⟩)

/-- Related decoders make `getTEKs` end the same way on the same bytes,
with related records on success. -/
theorem getTEKs_sim {u1 u2 : List Nat → Except String TemporaryExposureKeyExport}
    (h : SameDecodeButRollingPeriod u1 u2) (d : ByteSlice) :
    SameResultButRollingPeriod (getTEKs u1 d).result (getTEKs u2 d).result := by
  unfold getTEKs
  cases d.sliceTo 16 with
  | none => exact rfl
  | some head =>
    try dsimp only
    by_cases hc : bytesCompare head.bytes hdr ≠ 0
    · rw [if_pos hc, if_pos hc]
      exact ⟨rfl, trivial⟩
    · rw [if_neg hc, if_neg hc]
      cases d.sliceFrom 16 with
      | none => exact rfl
      | some body =>
        try dsimp only
        have hp := h body.bytes
        cases h1 : u1 body.bytes with
        | error e1 =>
          cases h2 : u2 body.bytes with
          | error e2 =>
            rw [h1, h2] at hp
            have hp : e1 = e2 := hp
            subst hp
            exact ⟨rfl, trivial⟩
          | ok r2 => rw [h1, h2] at hp; exact hp.elim
        | ok r1 =>
          cases h2 : u2 body.bytes with
          | error e2 => rw [h1, h2] at hp; exact hp.elim
          | ok r2 =>
            rw [h1, h2] at hp
            exact ⟨rfl, hp⟩

theorem processFile_sim {env1 env2 : Env} (metadata : meta) (keys : Int) (url : String)
    {f1 f2 : ZipFile}
    (hfile : SameFileButRollingPeriod env1.protoUnmarshal env2.protoUnmarshal f1 f2)
    {st1 st2 : State} (h : StateSim st1 st2) :
    ExecSim (processFile env1 metadata keys url f1 st1)
      (processFile env2 metadata keys url f2 st2) := by
  obtain ⟨hnames, hcont⟩ := hfile
  by_cases hname : f1.Name = "export.bin"
  · have hname2 : f2.Name = "export.bin" := by rw [← hnames]; exact hname
    have hcont := hcont hname
    unfold processFile
    rw [if_pos hname, if_pos hname2]
    cases hc1 : f1.content with
    | openError e1 =>
      cases hc2 : f2.content with
      | openError e2 => exact ⟨rfl, h⟩
      | readError e2 => rw [hc1, hc2] at hcont; exact hcont.elim
      | data d2 => rw [hc1, hc2] at hcont; exact hcont.elim
    | readError e1 =>
      cases hc2 : f2.content with
      | openError e2 => rw [hc1, hc2] at hcont; exact hcont.elim
      | readError e2 => exact ⟨rfl, h⟩
      | data d2 => rw [hc1, hc2] at hcont; exact hcont.elim
    | data d1 =>
      cases hc2 : f2.content with
      | openError e2 => rw [hc1, hc2] at hcont; exact hcont.elim
      | readError e2 => rw [hc1, hc2] at hcont; exact hcont.elim
      | data d2 =>
        rw [hc1, hc2] at hcont
        have hres : SameResultButRollingPeriod (getTEKs env1.protoUnmarshal d1).result
            (getTEKs env2.protoUnmarshal d2).result := hcont
        try dsimp only
        have h' := stateSim_append_calls h (getTEKs env1.protoUnmarshal d1).unmarshalCalls
          (getTEKs env2.protoUnmarshal d2).unmarshalCalls
        rcases getTEKs_shape env1.protoUnmarshal d1 with ⟨p1, hr1⟩ | ⟨e1, hr1⟩ | ⟨t1, hr1⟩ <;>
          rcases getTEKs_shape env2.protoUnmarshal d2 with ⟨p2, hr2⟩ | ⟨e2, hr2⟩ | ⟨t2, hr2⟩ <;>
          rw [hr1, hr2] at hres ⊢ <;>
          first
            | exact hres.elim
            | exact hres.2.elim
            | skip
        · have hp : p1 = p2 := hres
          subst hp
          exact ⟨rfl, h'⟩
        · exact ⟨rfl, h'⟩
        · try dsimp only
          obtain ⟨hstart, hend, hkeys⟩ : SameRecordButRollingPeriod t1 t2 := hres.2
          have hv := validateKeys_sim hkeys h'
          revert hv
          generalize validateKeys t1.Keys _ = r1
          generalize validateKeys t2.Keys _ = r2
          intro hv
          cases r1 with
          | error x1 =>
            cases r2 with
            | error x2 => exact hv
            | ok s2 => exact hv.elim
          | ok s1 =>
            cases r2 with
            | error x2 => exact hv.elim
            | ok s2 =>
              try dsimp only
              rw [← hstart, ← hend, ← hkeys.length_eq]
              have hv : StateSim s1 s2 := hv
              cases t1.StartTimestamp with
              | none => exact ⟨rfl, stateSim_emit (stateSim_emit hv _) _⟩
              | some s =>
                cases t1.EndTimestamp with
                | none => exact ⟨rfl, stateSim_emit (stateSim_emit hv _) _⟩
                | some e =>
                  have h1 := stateSim_total hv
                  have h2 := stateSim_first hv
                  have h3 := stateSim_last hv
                  have h4 := hv.2
                  show StateSim _ _
                  refine ⟨?_, ?_⟩
                  · split_ifs <;> simp [State.summary, h1, h2, h3]
                  · split_ifs <;> simp [quiet_append, h4]
  · have hname2 : f2.Name ≠ "export.bin" := by rw [← hnames]; exact hname
    rw [processFile_other _ _ _ _ _ _ hname, processFile_other _ _ _ _ _ _ hname2]
    exact h

theorem processFiles_sim {env1 env2 : Env} (metadata : meta) (keys : Int) (url : String)
    {fs1 fs2 : List ZipFile}
    (hfiles : List.Forall₂
      (SameFileButRollingPeriod env1.protoUnmarshal env2.protoUnmarshal) fs1 fs2)
    {st1 st2 : State} (h : StateSim st1 st2) :
    ExecSim (processFiles env1 metadata keys url fs1 st1)
      (processFiles env2 metadata keys url fs2 st2) := by
  induction hfiles generalizing st1 st2 with
  | nil => exact h
  | @cons f1 f2 l1 l2 hfile _ ih =>
    simp only [processFiles]
    have hf := processFile_sim metadata keys url hfile h
    revert hf
    generalize processFile env1 metadata keys url f1 st1 = r1
    generalize processFile env2 metadata keys url f2 st2 = r2
    intro hf
    cases r1 with
    | error x1 =>
      cases r2 with
      | error x2 => exact hf
      | ok s2 => exact hf.elim
    | ok s1 =>
      cases r2 with
      | error x2 => exact hf.elim
      | ok s2 => exact ih hf

/-- Related answers make `fetch` end the same way: with the same fatal
error, or with bodies related by `R`. -/
theorem fetch_sim {env1 env2 : Env} {R : List Nat → List Nat → Prop} (url : String)
    (hresp : SameResponse R (env1.httpGet url) (env2.httpGet url)) :
    (∃ f, (∀ st, fetch env1 url st = .error (.fatal f, emit (.httpGet url) st)) ∧
      ∀ st, fetch env2 url st = .error (.fatal f, emit (.httpGet url) st)) ∨
    (∃ b1 b2, R b1 b2 ∧ (∀ st, fetch env1 url st = .ok (b1, emit (.httpGet url) st)) ∧
      ∀ st, fetch env2 url st = .ok (b2, emit (.httpGet url) st)) := by
  unfold fetch
  cases h1 : env1.httpGet url with
  | getError e1 =>
    cases h2 : env2.httpGet url with
    | getError e2 => exact .inl ⟨_, fun _ => rfl, fun _ => rfl⟩
    | response c2 body2 => rw [h1, h2] at hresp; exact hresp.elim
  | response c1 body1 =>
    cases h2 : env2.httpGet url with
    | getError e2 => rw [h1, h2] at hresp; exact hresp.elim
    | response c2 body2 =>
      rw [h1, h2] at hresp
      obtain ⟨hc, hb⟩ : c1 = c2 ∧ _ := hresp
      subst hc
      by_cases hcode : c1 ≠ 200
      · exact .inl ⟨_, fun _ => if_pos hcode, fun _ => if_pos hcode⟩
      · cases body1 with
        | none =>
          cases body2 with
          | none => exact .inl ⟨_, fun _ => if_neg hcode, fun _ => if_neg hcode⟩
          | some y => exact hb.elim
        | some x =>
          cases body2 with
          | none => exact hb.elim
          | some y => exact .inr ⟨x, y, hb, fun _ => if_neg hcode, fun _ => if_neg hcode⟩

theorem processBatch_sim {env1 env2 : Env} (henv : SameEnvButRollingPeriod env1 env2)
    (metadata : meta) (keys : Int) {st1 st2 : State} (h : StateSim st1 st2) :
    ExecSim (processBatch env1 metadata keys st1) (processBatch env2 metadata keys st2) := by
  unfold processBatch
  try dsimp only
  have h' := stateSim_emit (stateSim_emit h (.logFetching (batchUrl keys)))
    (.httpGet (batchUrl keys))
  rcases fetch_sim (batchUrl keys) (henv.2 keys) with ⟨f, hf1, hf2⟩ | ⟨b1, b2, hR, hf1, hf2⟩
  · rw [hf1, hf2]
    exact ⟨rfl, h'⟩
  · rw [hf1, hf2]
    try dsimp only
    have hR : SameArchiveButRollingPeriod env1 env2 b1 b2 := hR
    unfold SameArchiveButRollingPeriod at hR
    cases hz1 : env1.zipNewReader b1 with
    | error e1 =>
      cases hz2 : env2.zipNewReader b2 with
      | error e2 => exact ⟨rfl, h'⟩
      | ok fs2 => rw [hz1, hz2] at hR; exact hR.elim
    | ok fs1 =>
      cases hz2 : env2.zipNewReader b2 with
      | error e2 => rw [hz1, hz2] at hR; exact hR.elim
      | ok fs2 =>
        rw [hz1, hz2] at hR
        exact processFiles_sim metadata keys _ hR h'

theorem batchLoop_sim {env1 env2 : Env} (henv : SameEnvButRollingPeriod env1 env2)
    (metadata : meta) (fuel : Nat) (keys : Int) {st1 st2 : State} (h : StateSim st1 st2) :
    RunSim (batchLoop env1 metadata fuel keys st1) (batchLoop env2 metadata fuel keys st2) := by
  induction fuel generalizing keys st1 st2 with
  | zero => exact h
  | succ fuel ih =>
    simp only [batchLoop]
    by_cases hle : keys ≤ metadata.Newest
    · simp only [hle, if_true]
      have hp := processBatch_sim henv metadata keys h
      revert hp
      generalize processBatch env1 metadata keys st1 = r1
      generalize processBatch env2 metadata keys st2 = r2
      intro hp
      cases r1 with
      | error x1 =>
        cases r2 with
        | error x2 => exact hp
        | ok s2 => exact hp.elim
      | ok s1 =>
        cases r2 with
        | error x2 => exact hp.elim
        | ok s2 => exact ih _ hp
    · simp only [hle, if_false]
      exact h

theorem report_sim {st1 st2 : State} (h : StateSim st1 st2) :
    StateSim (report st1) (report st2) := by
  unfold report
  simp only [emit_total, emit_firstTimestamp, emit_lastTimestamp]
  rw [stateSim_total h, stateSim_first h, stateSim_last h]
  exact stateSim_emit (stateSim_emit (stateSim_emit h _) _) _

theorem main_sim {env1 env2 : Env} (henv : SameEnvButRollingPeriod env1 env2) (fuel : Nat) :
    RunSim (main env1 fuel) (main env2 fuel) := by
  unfold main
  rcases fetch_sim indexUrl henv.1 with ⟨f, hf1, hf2⟩ | ⟨b1, b2, hR, hf1, hf2⟩
  · rw [hf1, hf2]
    exact ⟨rfl, stateSim_refl _⟩
  · rw [hf1, hf2]
    try dsimp only
    have hR : SameIndex env1 env2 b1 b2 := hR
    unfold SameIndex at hR
    cases hj1 : env1.jsonUnmarshal b1 with
    | error e1 =>
      cases hj2 : env2.jsonUnmarshal b2 with
      | error e2 => exact ⟨rfl, stateSim_refl _⟩
      | ok m2 => rw [hj1, hj2] at hR; exact hR.elim
    | ok metadata =>
      cases hj2 : env2.jsonUnmarshal b2 with
      | error e2 => rw [hj1, hj2] at hR; exact hR.elim
      | ok m2 =>
        rw [hj1, hj2] at hR
        have hR : metadata = m2 := hR
        subst hR
        try dsimp only
        by_cases hgt : metadata.Oldest > metadata.Newest
        · simp only [hgt, if_true]
          exact ⟨rfl, stateSim_refl _⟩
        · simp only [hgt, if_false]
          have hl := batchLoop_sim henv metadata fuel metadata.Oldest
            (stateSim_refl (emit (.logMeta metadata.Oldest metadata.Newest)
              (emit (.httpGet indexUrl) State.init)))
          revert hl
          generalize batchLoop env1 metadata fuel metadata.Oldest _ = r1
          generalize batchLoop env2 metadata fuel metadata.Oldest _ = r2
          intro hl
          cases r1 <;> cases r2 <;> first | exact hl.elim | skip
          · exact report_sim hl
          · exact hl
          · exact hl

theorem outcome_eq_of_runSim {r1 r2 : Run} (h : RunSim r1 r2) :
    r1.outcome = r2.outcome ∧ quiet r1.trace = quiet r2.trace := by
  cases r1 <;> cases r2 <;> first | exact h.elim | skip
  · exact ⟨congrArg Outcome.done h.1, h.2⟩
  · obtain ⟨ha, hs⟩ := h
    subst ha
    exact ⟨congrArg (Outcome.aborted _) hs.1, hs.2⟩
  · exact ⟨congrArg Outcome.outOfFuel h.1, h.2⟩

/-- Two environments with the same network, JSON and zip behaviour whose
decoders differ only in rolling-period values are related. -/
theorem sameEnv_of_sameDecode (env1 env2 : Env) (hget : env1.httpGet = env2.httpGet)
    (hjson : env1.jsonUnmarshal = env2.jsonUnmarshal)
    (hzip : env1.zipNewReader = env2.zipNewReader)
    (hdec : SameDecodeButRollingPeriod env1.protoUnmarshal env2.protoUnmarshal) :
    SameEnvButRollingPeriod env1 env2 := by
  have hresp : ∀ (R : List Nat → List Nat → Prop) (_ : ∀ b, R b b) (url : String),
      SameResponse R (env1.httpGet url) (env2.httpGet url) := by
    intro R hR url
    rw [hget]
    cases env2.httpGet url with
    | getError e => exact trivial
    | response c body =>
      refine ⟨rfl, ?_⟩
      cases body with
      | none => exact trivial
      | some b => exact hR b
  refine ⟨hresp _ ?_ indexUrl, fun keys => hresp _ ?_ (batchUrl keys)⟩
  · intro b
    unfold SameIndex
    rw [hjson]
    cases env2.jsonUnmarshal b with
    | error e => exact trivial
    | ok m => exact rfl
  · intro b
    unfold SameArchiveButRollingPeriod
    rw [hzip]
    cases env2.zipNewReader b with
    | error e => exact trivial
    | ok fs =>
      try dsimp only
      induction fs with
      | nil => exact .nil
      | cons f fs ih =>
        refine .cons ⟨rfl, fun _ => ?_⟩ ih
        cases hc : f.content with
        | openError e => exact trivial
        | readError e => exact trivial
        | data d => exact getTEKs_sim hdec d

/-- Two runs over the same batches whose decoded records differ only in
the values of rolling periods that both key records carry end the same way
(both complete, or both stop at the same abort) with the same `total`,
`firstTimestamp` and `lastTimestamp`, and perform the same effects apart from
the rolling-period warnings (and the bytes handed to the decoder). -/
theorem main_same_outcome_of_same_but_rolling_period (env1 env2 : Env)
    (henv : SameEnvButRollingPeriod env1 env2) (fuel : Nat) :
    (main env1 fuel).outcome = (main env2 fuel).outcome ∧
    quiet (main env1 fuel).trace = quiet (main env2 fuel).trace :=
  outcome_eq_of_runSim (main_sim henv fuel)

/-- When every key carries a rolling period the validation loop only
logs: it never aborts and leaves the summary alone, whatever the values. -/
theorem validateKeys_of_present (ks : List TemporaryExposureKey) (st : State)
    (h : ∀ k ∈ ks, k.RollingPeriod.isSome = true) :
    ∃ st', validateKeys ks st = .ok st' ∧ st'.summary = st.summary := by
  induction ks generalizing st with
  | nil => exact ⟨st, rfl, rfl⟩
  | cons k ks ih =>
    have hk := h k (List.mem_cons_self _ _)
    have htail : ∀ k' ∈ ks, k'.RollingPeriod.isSome = true :=
      fun k' hk' => h k' (List.mem_cons_of_mem _ hk')
    simp only [validateKeys]
    cases hrp : k.RollingPeriod with
    | none => rw [hrp] at hk; simp at hk
    | some v =>
      try dsimp only
      obtain ⟨st', h1, h2⟩ := ih
        (if v ≠ 144 then emit .logRollingPeriod st else st) htail
      refine ⟨st', h1, ?_⟩
      rw [h2]
      split_ifs <;> rfl

/-- A key without a rolling period stops the validation loop with a nil
pointer dereference (main.go 97). -/
theorem validateKeys_of_unset (k : TemporaryExposureKey) (ks : List TemporaryExposureKey)
    (st : State) (h : k.RollingPeriod = none) :
    validateKeys (k :: ks) st = .error (.panic .nilPointerDereference, st) := by
  simp only [validateKeys, h]

theorem sameDecode_single_odd :
    SameDecodeButRollingPeriod singleBatchEnv.protoUnmarshal oddPeriodsEnv.protoUnmarshal := by
  intro payload
  by_cases h1 : payload = [1]
  · subst h1
    exact ⟨rfl, rfl, .cons ⟨rfl, rfl⟩ (.cons ⟨rfl, rfl⟩ (.cons ⟨rfl, rfl⟩ .nil))⟩
  · by_cases h0 : payload = []
    · subst h0
      exact ⟨rfl, rfl, .nil⟩
    · have hb : (payload == [1]) = false := by simpa using h1
      have e1 : singleBatchEnv.protoUnmarshal payload = .error "proto: cannot parse" := by
        simp [singleBatchEnv, sampleEnv, decodeTable, List.lookup, hb, h0]
      have e2 : oddPeriodsEnv.protoUnmarshal payload = .error "proto: cannot parse" := by
        simp [oddPeriodsEnv, sampleEnv, decodeTable, List.lookup, hb, h0]
      rw [e1, e2]

/-- The single-batch scenario with rolling periods 143, 0 and -7 instead
of 144 completes with the same summary: all three keys are counted. -/
theorem main_odd_periods_same_outcome :
    (main oddPeriodsEnv 2).outcome = .done ⟨3, timeUnix 1700000000, Time.zero⟩ ∧
    (main singleBatchEnv 2).outcome = (main oddPeriodsEnv 2).outcome :=
  ⟨by decide, (main_same_outcome_of_same_but_rolling_period singleBatchEnv oddPeriodsEnv
    (sameEnv_of_sameDecode singleBatchEnv oddPeriodsEnv rfl rfl rfl sameDecode_single_odd) 2).1⟩

/-- C6 (evaluation): the single-batch run in which all three keys have
rolling period 144 completes with `total = 3`; the same run in which the second
key carries no rolling period (the records agree on the timestamps, the number
of keys and every other field) stops in the validation loop with a nil pointer
dereference before anything is counted.  Key validation is not advisory for
such a key. -/
theorem main_unset_rolling_period_panics :
    (main singleBatchEnv 2).outcome = .done ⟨3, timeUnix 1700000000, Time.zero⟩ ∧
    (main unsetPeriodEnv 2).outcome
      = .aborted (.panic .nilPointerDereference) ⟨0, Time.zero, Time.zero⟩ ∧
    unsetPeriodRecord.StartTimestamp = tenHourRecord.StartTimestamp ∧
    unsetPeriodRecord.EndTimestamp = tenHourRecord.EndTimestamp ∧
    unsetPeriodRecord.Keys.map (fun k => k.rest) = tenHourRecord.Keys.map (fun k => k.rest) ∧
    tenHourRecord.Keys.map (fun k => k.RollingPeriod) = [some 144, some 144, some 144] ∧
    unsetPeriodRecord.Keys.map (fun k => k.RollingPeriod) = [some 144, none, some 144] := by
  refine ⟨by decide, by decide, by decide, by decide, by decide, by decide, by decide⟩

/-! ## The first and the last timestamp -/

theorem mem_batchIds {lo hi x : Int} : x ∈ batchIds lo hi ↔ lo ≤ x ∧ x ≤ hi := by
  simp only [batchIds, List.mem_map, List.mem_range]
  constructor
  · rintro ⟨i, hi', rfl⟩
    omega
  · intro h
    exact ⟨(x - lo).toNat, by omega, by omega⟩

theorem batchIds_snoc {lo hi : Int} (h : lo ≤ hi) :
    batchIds lo hi = batchIds lo (hi - 1) ++ [hi] := by
  have h1 : (hi + 1 - lo).toNat = (hi - 1 + 1 - lo).toNat + 1 := by omega
  simp only [batchIds, h1, List.range_succ, List.map_append, List.map_cons, List.map_nil,
    List.append_cancel_left_eq, List.cons.injEq, and_true]
  omega

theorem foldRecord_foldl_timestamps (metadata : meta) (keys : Int)
    (recs : List TemporaryExposureKeyExport) (s : Summary) :
    (recs.foldl (foldRecord metadata keys) s).firstTimestamp
      = (if keys = metadata.Oldest then
          match recs.getLast? with
          | some r => timeUnix (wrapInt (r.StartTimestamp.getD 0))
          | none => s.firstTimestamp
        else s.firstTimestamp) ∧
    (recs.foldl (foldRecord metadata keys) s).lastTimestamp
      = (if keys = metadata.Oldest then s.lastTimestamp
        else if keys = metadata.Newest then
          match recs.getLast? with
          | some r => timeUnix (wrapInt (r.EndTimestamp.getD 0))
          | none => s.lastTimestamp
        else s.lastTimestamp) := by
  induction recs using List.reverseRecOn with
  | nil => simp
  | append_singleton recs r ih =>
    simp only [List.foldl_append, List.foldl_cons, List.foldl_nil, List.getLast?_concat]
    simp only [foldRecord]
    obtain ⟨ih1, ih2⟩ := ih
    refine ⟨?_, ?_⟩
    · split_ifs with hO
      · rfl
      · rw [ih1, if_neg hO]
    · split_ifs with hO hN
      · rw [ih2, if_pos hO]
      · rfl
      · rw [ih2, if_neg hO, if_neg hN]

theorem foldBatches_append (env : Env) (metadata : meta) (ids1 ids2 : List Int) (s : Summary) :
    foldBatches env metadata (ids1 ++ ids2) s
      = foldBatches env metadata ids2 (foldBatches env metadata ids1 s) := by
  simp [foldBatches, List.foldl_append]

theorem foldBatches_first_of_not_mem (env : Env) (metadata : meta) (ids : List Int)
    (s : Summary) (h : metadata.Oldest ∉ ids) :
    (foldBatches env metadata ids s).firstTimestamp = s.firstTimestamp := by
  induction ids generalizing s with
  | nil => rfl
  | cons keys ids ih =>
    have hne : keys ≠ metadata.Oldest := fun hk => h (hk ▸ List.mem_cons_self _ _)
    have htail : metadata.Oldest ∉ ids := fun hk => h (List.mem_cons_of_mem _ hk)
    simp only [foldBatches, List.foldl_cons]
    have := ih ((batchRecords env keys).foldl (foldRecord metadata keys) s) htail
    simp only [foldBatches] at this
    rw [this, (foldRecord_foldl_timestamps metadata keys _ s).1, if_neg hne]

/-- For a completed run with `Oldest < Newest`: when the batch at `Oldest`
and the batch at `Newest` each yield a record (the last one, should an archive
hold several members named `export.bin`), `firstTimestamp` is `time.Unix` of
the start timestamp of the former and `lastTimestamp` is `time.Unix` of the end
timestamp of the latter, whatever the batches in between hold. -/
theorem main_timestamps_of_lt (env : Env) (hwf : env.WF) (metadata : meta)
    (hmeta : metadataOf env = some metadata) (hlt : metadata.Oldest < metadata.Newest)
    (fuel : Nat) (s : Summary) (hdone : (main env fuel).outcome = .done s)
    (r1 r2 : TemporaryExposureKeyExport)
    (h1 : (batchRecords env metadata.Oldest).getLast? = some r1)
    (h2 : (batchRecords env metadata.Newest).getLast? = some r2) :
    s.firstTimestamp = timeUnix (wrapInt (r1.StartTimestamp.getD 0)) ∧
    s.lastTimestamp = timeUnix (wrapInt (r2.EndTimestamp.getD 0)) := by
  obtain ⟨st, hrun, hsum⟩ := outcome_done hdone
  obtain ⟨m, st1, hm, -, -, hfold, hst⟩ := main_done hwf hrun
  rw [hmeta] at hm
  cases hm
  obtain ⟨-, hs1, -⟩ := runBatches_ok hfold
  have hs : s = foldBatches env metadata (batchIds metadata.Oldest metadata.Newest)
      (loopStart metadata).summary := by
    rw [← hsum, hst, report_summary, hs1]
  have hne : metadata.Newest ≠ metadata.Oldest := by omega
  constructor
  · rw [hs, batchIds_of_le (le_of_lt hlt)]
    have hnm : metadata.Oldest ∉ batchIds (metadata.Oldest + 1) metadata.Newest := by
      rw [mem_batchIds]; omega
    have := foldBatches_first_of_not_mem env metadata _
      ((batchRecords env metadata.Oldest).foldl (foldRecord metadata metadata.Oldest)
        (loopStart metadata).summary) hnm
    simp only [foldBatches, List.foldl_cons] at this ⊢
    rw [this, (foldRecord_foldl_timestamps metadata metadata.Oldest _ _).1, if_pos rfl, h1]
  · rw [hs, batchIds_snoc (le_of_lt hlt), foldBatches_append]
    simp only [foldBatches, List.foldl_cons, List.foldl_nil]
    rw [(foldRecord_foldl_timestamps metadata metadata.Newest _ _).2, if_neg hne, if_pos rfl, h2]

/-- A completed run over a single batch (`Oldest = Newest`) never sets
`lastTimestamp`: the `else if` of main.go 118 is not reached. -/
theorem main_lastTimestamp_unset_of_eq (env : Env) (hwf : env.WF) (metadata : meta)
    (hmeta : metadataOf env = some metadata) (heq : metadata.Oldest = metadata.Newest)
    (fuel : Nat) (s : Summary) (hdone : (main env fuel).outcome = .done s) :
    s.lastTimestamp = Time.zero := by
  obtain ⟨st, hrun, hsum⟩ := outcome_done hdone
  obtain ⟨m, st1, hm, -, -, hfold, hst⟩ := main_done hwf hrun
  rw [hmeta] at hm
  cases hm
  obtain ⟨-, hs1, -⟩ := runBatches_ok hfold
  have hs : s = foldBatches env metadata (batchIds metadata.Oldest metadata.Newest)
      (loopStart metadata).summary := by
    rw [← hsum, hst, report_summary, hs1]
  rw [hs, batchIds_of_le (le_of_eq heq), batchIds_of_lt (by omega)]
  simp only [foldBatches, List.foldl_cons, List.foldl_nil]
  rw [(foldRecord_foldl_timestamps metadata metadata.Oldest _ _).2, if_pos rfl]
  rfl

/-- With `Newest` equal to the largest `int` no run completes, whatever
the fuel. -/
theorem main_never_done_of_maxInt (env : Env) (hwf : env.WF) (metadata : meta)
    (hmeta : metadataOf env = some metadata) (hN : metadata.Newest = maxInt)
    (fuel : Nat) (st : State) : main env fuel ≠ .done st := by
  intro h
  obtain ⟨m, st1, hm, -, hlt, -, -⟩ := main_done hwf h
  rw [hmeta] at hm
  cases hm
  omega

/-! ## `float64` arithmetic of the final report -/

theorem roundHalfEven_mem (x : ℚ) (a b : ℤ) (ha : (a : ℚ) ≤ x) (hb : x ≤ b) :
    a ≤ roundHalfEven x ∧ roundHalfEven x ≤ b := by
  have hfa : a ≤ ⌊x⌋ := Int.le_floor.2 ha
  have hfx : ((⌊x⌋ : ℤ) : ℚ) ≤ x := Int.floor_le x
  have hfb : ⌊x⌋ ≤ b := by exact_mod_cast hfx.trans hb
  have hup : ∀ (_ : 1 / 2 ≤ x - ⌊x⌋), ⌊x⌋ + 1 ≤ b := by
    intro hr
    have : ((⌊x⌋ : ℤ) : ℚ) < b := by linarith
    have : ⌊x⌋ < b := by exact_mod_cast this
    omega
  unfold roundHalfEven
  simp only
  split_ifs with h1 h2 h3
  · exact ⟨hfa, hfb⟩
  · exact ⟨by omega, hup (le_of_lt h2)⟩
  · exact ⟨hfa, hfb⟩
  · exact ⟨by omega, hup (not_lt.1 h1)⟩

theorem roundFloat64_mem (m : ℤ) (a b : ℤ) (x : ℚ) (hx : |x| < 2 ^ m)
    (ha : (a : ℚ) * 2 ^ (m - 53) ≤ x) (hb : x ≤ (b : ℚ) * 2 ^ (m - 53)) :
    (a : ℚ) * 2 ^ (m - 53) ≤ roundFloat64 x ∧ roundFloat64 x ≤ (b : ℚ) * 2 ^ (m - 53) := by
  by_cases hx0 : x = 0
  · simp only [roundFloat64, hx0, if_true]
    subst hx0
    exact ⟨ha, hb⟩
  · simp only [roundFloat64, hx0, if_false]
    have hpos : 0 < |x| := abs_pos.2 hx0
    have he : (2 : ℚ) ^ (Int.log 2 |x|) ≤ |x| := Int.zpow_log_le_self (by norm_num) hpos
    have hlt : (2 : ℚ) ^ (Int.log 2 |x|) < 2 ^ m := lt_of_le_of_lt he hx
    have hem : Int.log 2 |x| < m := (zpow_lt_zpow_iff_right₀ (by norm_num : (1 : ℚ) < 2)).1 hlt
    generalize Int.log 2 |x| = e at hem ⊢
    obtain ⟨n, hn⟩ : ∃ n : ℕ, m - 53 = (e - 52) + n := ⟨(m - 1 - e).toNat, by omega⟩
    have hu : (0 : ℚ) < 2 ^ (e - 52) := by positivity
    have hsplit : (2 : ℚ) ^ (m - 53) = 2 ^ (e - 52) * 2 ^ n := by
      rw [hn, zpow_add₀ (by norm_num : (2 : ℚ) ≠ 0), zpow_natCast]
    rw [hsplit] at ha hb ⊢
    have ha' : (((a * 2 ^ n : ℤ)) : ℚ) ≤ x / 2 ^ (e - 52) := by
      rw [le_div_iff₀ hu]; push_cast; linarith
    have hb' : x / 2 ^ (e - 52) ≤ ((b * 2 ^ n : ℤ) : ℚ) := by
      rw [div_le_iff₀ hu]; push_cast; linarith
    obtain ⟨h1, h2⟩ := roundHalfEven_mem _ _ _ ha' hb'
    have h1' : ((a * 2 ^ n : ℤ) : ℚ) ≤ (roundHalfEven (x / 2 ^ (e - 52)) : ℚ) := by exact_mod_cast h1
    have h2' : (roundHalfEven (x / 2 ^ (e - 52)) : ℚ) ≤ ((b * 2 ^ n : ℤ) : ℚ) := by exact_mod_cast h2
    push_cast at h1' h2'
    constructor
    · calc (a : ℚ) * (2 ^ (e - 52) * 2 ^ n) = (a * 2 ^ n) * 2 ^ (e - 52) := by ring
        _ ≤ _ := mul_le_mul_of_nonneg_right h1' hu.le
    · calc (roundHalfEven (x / 2 ^ (e - 52)) : ℚ) * 2 ^ (e - 52)
          ≤ (b * 2 ^ n) * 2 ^ (e - 52) := mul_le_mul_of_nonneg_right h2' hu.le
        _ = _ := by ring

theorem roundFloat64_intCast (z : ℤ) (h : |z| < 2 ^ 53) : roundFloat64 (z : ℚ) = z := by
  have hz : |(z : ℚ)| < 2 ^ (53 : ℤ) := by
    have : ((|z| : ℤ) : ℚ) < ((2 ^ 53 : ℤ) : ℚ) := by exact_mod_cast h
    rw [Int.cast_abs] at this
    calc |(z : ℚ)| < ((2 ^ 53 : ℤ) : ℚ) := this
      _ = 2 ^ (53 : ℤ) := by norm_num
  have := roundFloat64_mem 53 z z (z : ℚ) hz (by simp) (by simp)
  simp only [sub_self, zpow_zero, mul_one] at this
  exact le_antisymm this.2 this.1

theorem Hour_eq : Hour = 3600000000000 := by decide

theorem tdiv_tmod_cases (d b : Int) (hb : 0 < b) :
    (0 ≤ d ∧ Int.tdiv d b = d / b ∧ Int.tmod d b = d % b) ∨
    (d < 0 ∧ Int.tdiv d b = -((-d) / b) ∧ Int.tmod d b = -((-d) % b)) := by
  by_cases hd : 0 ≤ d
  · exact .inl ⟨hd, Int.tdiv_eq_ediv hd hb.le, Int.tmod_eq_emod hd hb.le⟩
  · have hd' : 0 ≤ -d := by omega
    have h1 : Int.tdiv d b = -((-d) / b) := by
      rw [← Int.tdiv_eq_ediv hd' hb.le, Int.neg_tdiv, neg_neg]
    have h2 := Int.tdiv_add_tmod d b
    have h3 := Int.ediv_add_emod (-d) b
    refine .inr ⟨by omega, h1, ?_⟩
    rw [h1] at h2
    have : b * -(-d / b) = -(b * (-d / b)) := by ring
    omega

theorem two_zpow_neg_twelve : (2 : ℚ) ^ ((41 : ℤ) - 53) = 1 / 4096 := by
  norm_num [zpow_neg]

/-- Bounds on `Hours d` from bounds on the fraction of the hour. -/
theorem Hours_mem (d : Int) (hd : |d| ≤ 2 ^ 63) (a b : ℤ) (ha : -4096 ≤ a) (hb : b ≤ 4096)
    (hlo : a * 878906250 ≤ Int.tmod d Hour) (hhi : Int.tmod d Hour ≤ b * 878906250) :
    (Int.tdiv d Hour : ℚ) + a / 4096 ≤ Hours d ∧ Hours d ≤ (Int.tdiv d Hour : ℚ) + b / 4096 := by
  have hH : (0 : Int) < Hour := by decide
  have hdiv : |Int.tdiv d Hour| ≤ 2562047 ∧ |Int.tmod d Hour| < 3600000000000 := by
    rw [abs_le] at hd
    rw [abs_le, abs_lt]
    rcases tdiv_tmod_cases d Hour hH with ⟨h0, h1, h2⟩ | ⟨h0, h1, h2⟩ <;>
      rw [h1, h2, Hour_eq] <;> omega
  obtain ⟨hq, hr⟩ := hdiv
  unfold Hours
  simp only
  generalize Int.tdiv d Hour = hour at hq ⊢
  generalize Int.tmod d Hour = nsec at hlo hhi hr ⊢
  rw [roundFloat64_intCast hour (lt_of_le_of_lt hq (by norm_num)),
    roundFloat64_intCast nsec (lt_trans hr (by norm_num))]
  have hr' : |(nsec : ℚ)| < 3600000000000 := by
    have : ((|nsec| : ℤ) : ℚ) < ((3600000000000 : ℤ) : ℚ) := by exact_mod_cast hr
    rw [Int.cast_abs] at this
    simpa using this
  have hq' : |(hour : ℚ)| ≤ 2562047 := by
    have : ((|hour| : ℤ) : ℚ) ≤ ((2562047 : ℤ) : ℚ) := by exact_mod_cast hq
    rw [Int.cast_abs] at this
    simpa using this
  have hlo' : (a : ℚ) * 878906250 ≤ nsec := by exact_mod_cast hlo
  have hhi' : (nsec : ℚ) ≤ b * 878906250 := by exact_mod_cast hhi
  have hx : |(nsec : ℚ) / (60 * 60 * 1000000000)| < 2 ^ (41 : ℤ) := by
    rw [abs_div, abs_of_pos (by norm_num : (0 : ℚ) < 60 * 60 * 1000000000),
      div_lt_iff₀ (by norm_num)]
    calc |(nsec : ℚ)| < 3600000000000 := hr'
      _ ≤ _ := by norm_num
  obtain ⟨f1, f2⟩ := roundFloat64_mem 41 a b ((nsec : ℚ) / (60 * 60 * 1000000000)) hx
    (by rw [two_zpow_neg_twelve, le_div_iff₀ (by norm_num)]; linarith)
    (by rw [two_zpow_neg_twelve, div_le_iff₀ (by norm_num)]; linarith)
  rw [two_zpow_neg_twelve] at f1 f2
  have ha' : (-4096 : ℚ) ≤ a := by exact_mod_cast ha
  have hb' : (b : ℚ) ≤ 4096 := by exact_mod_cast hb
  rw [abs_le] at hq'
  generalize roundFloat64 ((nsec : ℚ) / (60 * 60 * 1000000000)) = q at f1 f2 ⊢
  have hs : |(hour : ℚ) + q| < 2 ^ (41 : ℤ) := by
    rw [abs_lt]
    constructor
    · calc -(2 : ℚ) ^ (41 : ℤ) < -2562047 + -4096 * (1 / 4096) := by norm_num
        _ ≤ hour + q := by nlinarith
    · calc (hour : ℚ) + q ≤ 2562047 + 4096 * (1 / 4096) := by nlinarith
        _ < 2 ^ (41 : ℤ) := by norm_num
  obtain ⟨g1, g2⟩ := roundFloat64_mem 41 (hour * 4096 + a) (hour * 4096 + b) ((hour : ℚ) + q) hs
    (by rw [two_zpow_neg_twelve]; push_cast; linarith)
    (by rw [two_zpow_neg_twelve]; push_cast; linarith)
  rw [two_zpow_neg_twelve] at g1 g2
  push_cast at g1 g2
  constructor <;> linarith

theorem floatToInt_of_mem_nonneg (x : ℚ) (z : ℤ) (h0 : 0 ≤ z) (h1 : (z : ℚ) ≤ x)
    (h2 : x < z + 1) : floatToInt x = z := by
  have hz : (0 : ℚ) ≤ z := by exact_mod_cast h0
  have hx : 0 ≤ x := le_trans hz h1
  simp only [floatToInt, hx, if_true]
  exact Int.floor_eq_iff.2 ⟨h1, h2⟩

theorem floatToInt_of_mem_nonpos (x : ℚ) (z : ℤ) (h0 : z ≤ 0) (h1 : (z : ℚ) - 1 < x)
    (h2 : x ≤ z) : floatToInt x = z := by
  have hz : (z : ℚ) ≤ 0 := by exact_mod_cast h0
  by_cases hx : 0 ≤ x
  · have hx0 : x = 0 := le_antisymm (le_trans h2 hz) hx
    have hz0 : (z : ℚ) = 0 := le_antisymm hz (by rw [← hx0]; exact h2)
    have : z = 0 := by exact_mod_cast hz0
    subst this
    simp [floatToInt, hx0]
  · simp only [floatToInt, hx, if_false]
    exact Int.ceil_eq_iff.2 ⟨h1, h2⟩

theorem two_zpow_neg_seventeen : (2 : ℚ) ^ ((36 : ℤ) - 53) = 1 / 131072 := by
  norm_num [zpow_neg]

theorem days_of_mem_nonneg (H : ℚ) (hour : ℤ) (h0 : 0 ≤ hour) (hmax : hour ≤ 2562047)
    (h1 : (hour : ℚ) ≤ H) (h2 : H ≤ hour + 4095 / 4096) :
    floatToInt (roundFloat64 (H / 24)) = hour / 24 := by
  have hdm := Int.ediv_add_emod hour 24
  have hm0 := Int.emod_nonneg hour (by decide : (24 : Int) ≠ 0)
  have hm1 := Int.emod_lt_of_pos hour (by decide : (0 : Int) < 24)
  have hD0 : 0 ≤ hour / 24 := by omega
  have hDmax : hour / 24 ≤ 106751 := by omega
  have hlo : 24 * (hour / 24) ≤ hour := by omega
  have hhi : hour ≤ 24 * (hour / 24) + 23 := by omega
  generalize hour / 24 = D at hD0 hDmax hlo hhi ⊢
  have hlo' : 24 * (D : ℚ) ≤ hour := by exact_mod_cast hlo
  have hhi' : (hour : ℚ) ≤ 24 * D + 23 := by exact_mod_cast hhi
  have hD0' : (0 : ℚ) ≤ D := by exact_mod_cast hD0
  have hDmax' : (D : ℚ) ≤ 106751 := by exact_mod_cast hDmax
  have hx : |H / 24| < 2 ^ (36 : ℤ) := by
    rw [abs_lt]
    constructor
    · calc -(2 : ℚ) ^ (36 : ℤ) < 0 := by norm_num
        _ ≤ H / 24 := by apply div_nonneg <;> linarith
    · rw [div_lt_iff₀ (by norm_num)]
      calc H ≤ 24 * 106751 + 23 + 4095 / 4096 := by linarith
        _ < 2 ^ (36 : ℤ) * 24 := by norm_num
  obtain ⟨g1, g2⟩ := roundFloat64_mem 36 (D * 131072) (D * 131072 + 131071) (H / 24) hx
    (by rw [two_zpow_neg_seventeen, le_div_iff₀ (by norm_num)]; push_cast; linarith)
    (by rw [two_zpow_neg_seventeen, div_le_iff₀ (by norm_num)]; push_cast; linarith)
  rw [two_zpow_neg_seventeen] at g1 g2
  push_cast at g1 g2
  exact floatToInt_of_mem_nonneg _ D hD0 (by linarith) (by linarith)

theorem days_of_mem_nonpos (H : ℚ) (hour : ℤ) (h0 : hour ≤ 0) (hmin : -2562047 ≤ hour)
    (h1 : (hour : ℚ) - 4095 / 4096 ≤ H) (h2 : H ≤ hour) :
    floatToInt (roundFloat64 (H / 24)) = -((-hour) / 24) := by
  have hD0 : -((-hour) / 24) ≤ 0 := by omega
  have hDmin : -106751 ≤ -((-hour) / 24) := by omega
  have hlo : 24 * (-((-hour) / 24)) - 23 ≤ hour := by omega
  have hhi : hour ≤ 24 * (-((-hour) / 24)) := by omega
  generalize -((-hour) / 24) = D at hD0 hDmin hlo hhi ⊢
  have hlo' : 24 * (D : ℚ) - 23 ≤ hour := by exact_mod_cast hlo
  have hhi' : (hour : ℚ) ≤ 24 * D := by exact_mod_cast hhi
  have hD0' : (D : ℚ) ≤ 0 := by exact_mod_cast hD0
  have hDmin' : (-106751 : ℚ) ≤ D := by exact_mod_cast hDmin
  have hx : |H / 24| < 2 ^ (36 : ℤ) := by
    rw [abs_lt]
    constructor
    · rw [lt_div_iff₀ (by norm_num)]
      calc -(2 : ℚ) ^ (36 : ℤ) * 24 < 24 * (-106751) - 23 - 4095 / 4096 := by norm_num
        _ ≤ H := by linarith
    · calc H / 24 ≤ 0 := by apply div_nonpos_of_nonpos_of_nonneg <;> linarith
        _ < 2 ^ (36 : ℤ) := by norm_num
  obtain ⟨g1, g2⟩ := roundFloat64_mem 36 (D * 131072 - 131071) (D * 131072) (H / 24) hx
    (by rw [two_zpow_neg_seventeen, le_div_iff₀ (by norm_num)]; push_cast; linarith)
    (by rw [two_zpow_neg_seventeen, div_le_iff₀ (by norm_num)]; push_cast; linarith)
  rw [two_zpow_neg_seventeen] at g1 g2
  push_cast at g1 g2
  exact floatToInt_of_mem_nonpos _ D hD0 (by linarith) (by linarith)

theorem window_of_nonneg (d : Int) (h0 : 0 ≤ d) (h1 : d ≤ 2 ^ 63)
    (hf : d % 3600000000000 ≤ 3599121093750) :
    floatToInt (Hours d) = d / 3600000000000 ∧
    floatToInt (roundFloat64 (Hours d / 24)) = d / 3600000000000 / 24 := by
  have hH : (0 : Int) < Hour := by decide
  have hd : |d| ≤ 2 ^ 63 := by rw [abs_le]; omega
  rcases tdiv_tmod_cases d Hour hH with ⟨-, hq, hr⟩ | ⟨hneg, -, -⟩
  · have hq : Int.tdiv d Hour = d / 3600000000000 := by rw [hq, Hour_eq]
    have hr : Int.tmod d Hour = d % 3600000000000 := by rw [hr, Hour_eq]
    have hmem := Hours_mem d hd 0 4095 (by decide) (by decide)
      (by rw [hr]; omega) (by rw [hr]; omega)
    rw [hq] at hmem
    have hq0 : 0 ≤ d / 3600000000000 := by omega
    have hqmax : d / 3600000000000 ≤ 2562047 := by omega
    obtain ⟨m1, m2⟩ := hmem
    push_cast at m1 m2
    constructor
    · exact floatToInt_of_mem_nonneg _ _ hq0 (by linarith) (by linarith)
    · exact days_of_mem_nonneg _ _ hq0 hqmax (by linarith) (by linarith)
  · omega

theorem window_of_nonpos (d : Int) (h0 : d ≤ 0) (h1 : -(2 ^ 63) ≤ d)
    (hf : (-d) % 3600000000000 ≤ 3599121093750) :
    floatToInt (Hours d) = -((-d) / 3600000000000) ∧
    floatToInt (roundFloat64 (Hours d / 24)) = -((-d) / 3600000000000 / 24) := by
  have hH : (0 : Int) < Hour := by decide
  have hd : |d| ≤ 2 ^ 63 := by rw [abs_le]; omega
  have hcases : Int.tdiv d Hour = -((-d) / 3600000000000) ∧
      Int.tmod d Hour = -((-d) % 3600000000000) := by
    rcases tdiv_tmod_cases d Hour hH with ⟨hnn, hq, hr⟩ | ⟨-, hq, hr⟩
    · have : d = 0 := by omega
      subst this
      exact ⟨by decide, by decide⟩
    · exact ⟨by rw [hq, Hour_eq], by rw [hr, Hour_eq]⟩
  obtain ⟨hq, hr⟩ := hcases
  have hmem := Hours_mem d hd (-4095) 0 (by decide) (by decide)
    (by rw [hr]; omega) (by rw [hr]; omega)
  rw [hq] at hmem
  have hq0 : -((-d) / 3600000000000) ≤ 0 := by omega
  have hqmin : -2562047 ≤ -((-d) / 3600000000000) := by omega
  obtain ⟨m1, m2⟩ := hmem
  push_cast at m1 m2
  constructor
  · exact floatToInt_of_mem_nonpos _ _ hq0 (by push_cast; linarith) (by push_cast; linarith)
  · have := days_of_mem_nonpos (Hours d) (-((-d) / 3600000000000)) hq0 hqmin
      (by push_cast; linarith) (by push_cast; linarith)
    rw [this, neg_neg]

/-! ## The final report -/

theorem timeSub_of_fit (first last : Time) (h0 : first.sec ≤ last.sec)
    (h1 : last.sec - first.sec ≤ 9223372036) :
    last.Sub first = (last.sec - first.sec) * 1000000000 := by
  unfold Time.Sub minDuration maxDuration
  simp only
  rw [if_neg (by omega), if_neg (by omega)]

theorem timeSub_saturated (first last : Time) (h : 9223372036 < last.sec - first.sec) :
    last.Sub first = maxDuration := by
  unfold Time.Sub minDuration maxDuration
  simp only
  rw [if_neg (by omega), if_pos (by omega)]

theorem timeSub_saturated_neg (first last : Time) (h : last.sec - first.sec < -9223372036) :
    last.Sub first = minDuration := by
  unfold Time.Sub minDuration
  simp only
  rw [if_pos (by omega)]

theorem report_trace (st : State) :
    (report st).trace = st.trace ++ [.logTotal st.total, .logReports (st.total / 14),
      .logTotalWindow (windowDays st.firstTimestamp st.lastTimestamp)
        (windowHours st.firstTimestamp st.lastTimestamp)] := by
  simp [report, emit]

/-- A window of `s` seconds, `0 ≤ s ≤ 9223372036`, is printed as
`s / 86400` days and `s / 3600 % 24` hours. -/
theorem window_of_fit (first last : Time) (h0 : first.sec ≤ last.sec)
    (h1 : last.sec - first.sec ≤ 9223372036) :
    windowDays first last = (last.sec - first.sec) / 86400 ∧
    windowHours first last = (last.sec - first.sec) / 3600 % 24 := by
  unfold windowDays windowHours
  rw [timeSub_of_fit first last h0 h1]
  have hs : 0 ≤ last.sec - first.sec := by omega
  generalize last.sec - first.sec = s at hs h1
  obtain ⟨w1, w2⟩ := window_of_nonneg (s * 1000000000) (by omega) (by omega) (by omega)
  rw [w1, w2]
  have e1 : s * 1000000000 / 3600000000000 = s / 3600 := by omega
  rw [e1]
  refine ⟨by omega, ?_⟩
  exact Int.tmod_eq_emod (by omega) (by decide)

/-- A window of more than 9223372036 seconds is printed as the largest
`Duration`: 106751 days and 23 hours. -/
theorem window_saturated (first last : Time) (h : 9223372036 < last.sec - first.sec) :
    windowDays first last = 106751 ∧ windowHours first last = 23 := by
  unfold windowDays windowHours
  rw [timeSub_saturated first last h]
  obtain ⟨w1, w2⟩ := window_of_nonneg maxDuration (by decide) (by decide) (by decide)
  rw [w1, w2]
  exact ⟨by decide, by decide⟩

/-- A window below -9223372036 seconds is printed as the smallest
`Duration`: -106751 days and -23 hours. -/
theorem window_saturated_neg (first last : Time) (h : last.sec - first.sec < -9223372036) :
    windowDays first last = -106751 ∧ windowHours first last = -23 := by
  unfold windowDays windowHours
  rw [timeSub_saturated_neg first last h]
  obtain ⟨w1, w2⟩ := window_of_nonpos minDuration (by decide) (by decide) (by decide)
  rw [w1, w2]
  exact ⟨by decide, by decide⟩

/-- C10 (as amended): for a final summary whose timestamps are `s` whole
seconds apart with `0 ≤ s ≤ 9223372036` (the window fits in a
`time.Duration`), the report prints `total`, the estimate `total / 14` and
the window as `s / 86400` days and `s / 3600 % 24` hours; the hours are in
`[0, 24)` and `days * 24 + hours = s / 3600`. -/
theorem report_window_of_fit (st : State) (s : Int)
    (hs : st.lastTimestamp.sec - st.firstTimestamp.sec = s) (h0 : 0 ≤ s)
    (hfit : s ≤ 9223372036) :
    (report st).trace = st.trace ++ [.logTotal st.total, .logReports (st.total / 14),
      .logTotalWindow (s / 86400) (s / 3600 % 24)] ∧
    0 ≤ s / 3600 % 24 ∧ s / 3600 % 24 < 24 ∧ s / 86400 * 24 + s / 3600 % 24 = s / 3600 := by
  subst hs
  obtain ⟨w1, w2⟩ := window_of_fit st.firstTimestamp st.lastTimestamp (by omega) hfit
  rw [report_trace, w1, w2]
  refine ⟨rfl, ?_, ?_, ?_⟩ <;> omega

/-- The last line printed by a run that completes. -/
theorem main_done_last_line (env : Env) (hwf : env.WF) {fuel : Nat} {s : Summary}
    (h : (main env fuel).outcome = .done s) :
    (main env fuel).trace.getLast?
      = some (.logTotalWindow (windowDays s.firstTimestamp s.lastTimestamp)
          (windowHours s.firstTimestamp s.lastTimestamp)) := by
  obtain ⟨st, hrun, hsum⟩ := outcome_done h
  obtain ⟨m, st1, -, -, -, -, hst⟩ := main_done hwf hrun
  rw [hrun, ← hsum, hst]
  simp only [Run.trace, report_trace, report_summary, State.summary]
  rw [show ∀ (l : List Event) (a b c : Event), l ++ [a, b, c] = (l ++ [a, b]) ++ [c] from
    fun l a b c => by simp]
  exact List.getLast?_concat _

/-- Three keys and a window of 36000 seconds: estimate 0, window 0d 10h;
this is the final state of the run over batches 1 and 2 that cover ten
hours. -/
theorem report_window_of_fit_witness :
    (main tenHourEnv 3).outcome
      = .done ⟨3, timeUnix 1700000000, timeUnix 1700036000⟩ ∧
    (report ⟨3, timeUnix 1700000000, timeUnix 1700036000, []⟩).trace
      = [.logTotal 3, .logReports 0, .logTotalWindow 0 10] :=
  ⟨by decide,
    (report_window_of_fit ⟨3, timeUnix 1700000000, timeUnix 1700036000, []⟩ 36000
      (by decide) (by decide) (by decide)).1⟩

/-- C10 (counterexample): the run over batches 1 and 2 whose records
start at unix second 0 and end at unix second 10000000000 completes with
`firstTimestamp` and `lastTimestamp` `s = 10000000000` seconds apart;
`s / 86400 = 115740` and `s / 3600 % 24 = 17`, but the last line of the report
is 106751 days and 23 hours.  The same line is printed when the batch at
`Oldest` lacks `export.bin` and `firstTimestamp` stays unset. -/
theorem report_window_saturates :
    (main farApartEnv 3).outcome = .done ⟨3, timeUnix 0, timeUnix 10000000000⟩ ∧
    (timeUnix 10000000000).sec - (timeUnix 0).sec = 10000000000 ∧
    (10000000000 : Int) / 86400 = 115740 ∧ (10000000000 : Int) / 3600 % 24 = 17 ∧
    (main farApartEnv 3).trace.getLast? = some (.logTotalWindow 106751 23) ∧
    (main missingOldestEnv 3).outcome = .done ⟨3, Time.zero, timeUnix 1700036000⟩ ∧
    (main missingOldestEnv 3).trace.getLast? = some (.logTotalWindow 106751 23) := by
  have h1 : (main farApartEnv 3).outcome = .done ⟨3, timeUnix 0, timeUnix 10000000000⟩ := by
    decide
  have h2 : (main missingOldestEnv 3).outcome
      = .done ⟨3, Time.zero, timeUnix 1700036000⟩ := by decide
  refine ⟨h1, by decide, by decide, by decide, ?_, h2, ?_⟩
  · rw [main_done_last_line farApartEnv (sampleEnv_WF _ _ _ (by decide)) h1]
    obtain ⟨w1, w2⟩ := window_saturated (timeUnix 0) (timeUnix 10000000000) (by decide)
    rw [w1, w2]
  · rw [main_done_last_line missingOldestEnv (sampleEnv_WF _ _ _ (by decide)) h2]
    obtain ⟨w1, w2⟩ := window_saturated Time.zero (timeUnix 1700036000) (by decide)
    rw [w1, w2]

/-- C1 (evaluation): in the scenario `oldest = 5, newest = 5` with
`start = 1700000000` and `end = 1700036000` the run completes with three keys
and `firstTimestamp` set, but `lastTimestamp` is still the zero `Time`, not
`time.Unix(1700036000, 0)`; the window is printed as `-106751d -23h`, not as
`0d 10h`. -/
theorem main_single_batch_lastTimestamp_unset :
    (main singleBatchEnv 2).outcome = .done ⟨3, timeUnix 1700000000, Time.zero⟩ ∧
    Time.zero ≠ timeUnix 1700036000 ∧
    (main singleBatchEnv 2).trace.getLast? = some (.logTotalWindow (-106751) (-23)) := by
  have hout : (main singleBatchEnv 2).outcome = .done ⟨3, timeUnix 1700000000, Time.zero⟩ := by
    decide
  refine ⟨hout, by decide, ?_⟩
  rw [main_done_last_line singleBatchEnv (sampleEnv_WF _ _ _ (by decide)) hout]
  obtain ⟨w1, w2⟩ := window_saturated_neg (timeUnix 1700000000) Time.zero (by decide)
  rw [w1, w2]

end ImmuniStats
